import Mathlib

/-!
Verification of the Rust-Progress TUI (rust-tui) against its specification.

The development shallowly embeds the two engines of the program:

* the modal text editor (`src/rust-tui/src/ui/editor.rs` and
  `src/rust-tui/src/ui/handlers/visual.rs`), and
* the verification scheduler and session-state persistence
  (`src/rust-tui/src/app_state.rs`).

Modelling conventions:

* Rust `String` lines are modelled as `List Char` (sequences of Unicode
  scalar values).  The source indexes strings by byte offsets that it always
  derives from scalar (`char`) indices via `char_to_byte_idx` /
  `len_utf8` sums, so edits at such offsets correspond exactly to edits at
  scalar positions; where the source uses a raw byte length
  (`delete_around_word`), the byte length is modelled explicitly
  (`byteLen`).
* Rust `Vec` operations map to `List` operations: `push` appends at the
  end, `pop` removes the last element, `remove i` is `eraseIdx i`,
  `insert i x` is `insertIdx i x`.
* `usize` arithmetic that the source only performs on in-range values is
  modelled with `Nat` (with truncated subtraction where the source uses
  `saturating_sub`).
* Out-of-range indexing, which would panic in Rust, is modelled totally via
  `getD` / `get?`; every use below is in range under the buffer invariants.
-/

namespace RustProgress

/-- A buffer line: a sequence of Unicode scalar values (Rust `String`
viewed through `.chars()`). -/
abbrev Line := List Char

/-- Rust `char::is_whitespace` (the program only ever applies it to ASCII
text in the properties below, where it agrees with `Char.isWhitespace`). -/
def char_is_whitespace (c : Char) : Bool := c.isWhitespace

/-- Number of bytes of the UTF-8 encoding of a scalar value
(Rust `char::len_utf8`). -/
def utf8Len (c : Char) : Nat :=
  if c.toNat < 0x80 then 1
  else if c.toNat < 0x800 then 2
  else if c.toNat < 0x10000 then 3
  else 4

/-- Byte length of a line (Rust `str::len`). -/
def byteLen (l : Line) : Nat := (l.map utf8Len).sum

/-- Split a character sequence at every newline character, keeping empty
pieces (Rust `slice::split(|c| *c == b'\n')` / `str::split('\n')`:
the result always has one more piece than there are newlines). -/
def splitNl : List Char → List (List Char)
  | [] => [[]]
  | c :: rest =>
    match splitNl rest with
    | [] => [[c]]
    | l :: ls => if c = '\n' then [] :: l :: ls else (c :: l) :: ls

/-- Remove a single trailing carriage return (the trimming Rust
`str::lines` applies to every piece that was terminated by a newline). -/
def stripCR (l : List Char) : List Char :=
  if l.getLast? = some '\r' then l.dropLast else l

/-- Interior worker for `rustLines`: every piece except the last was
newline-terminated and gets `\r`-trimmed; a last empty piece (from a
trailing newline) produces no line at all. -/
def rustLinesGo : List (List Char) → List (List Char)
  | [] => []
  | [last] => if last = [] then [] else [last]
  | l :: ls => stripCR l :: rustLinesGo ls

/-- Rust `str::lines`: split on `\n`, trim a `\r` preceding each `\n`,
and do not emit a final empty line for a trailing line terminator. -/
def rustLines (s : List Char) : List (List Char) :=
  rustLinesGo (splitNl s)

/-- Join lines with `\n` (Rust `Vec::join("\n")`). -/
def joinNl : List (List Char) → List Char
  | [] => []
  | [l] => l
  | l :: ls => l ++ '\n' :: joinNl ls

/-- Snapshot of the buffer and cursor (editor.rs `EditorSnapshot`). -/
structure EditorSnapshot where
  lines : List Line
  cursor_row : Nat
  cursor_col : Nat
deriving DecidableEq, Repr

/-- editor.rs `MAX_UNDO_HISTORY`. -/
def MAX_UNDO_HISTORY : Nat := 100

/-- editor.rs `TextEditor`. -/
structure TextEditor where
  lines : List Line
  cursor_row : Nat
  cursor_col : Nat
  scroll_offset : Nat
  undo_stack : List EditorSnapshot
  redo_stack : List EditorSnapshot
deriving DecidableEq, Repr

/-- `TextEditor::new`: split the content into lines, guaranteeing at least
one (possibly empty) line. -/
def TextEditor.new (content : List Char) : TextEditor :=
  let lines := rustLines content
  { lines := if lines = [] then [[]] else lines
    cursor_row := 0
    cursor_col := 0
    scroll_offset := 0
    undo_stack := []
    redo_stack := [] }

/-- `TextEditor::content`: rejoin the lines with `\n`. -/
def TextEditor.content (ed : TextEditor) : List Char :=
  joinNl ed.lines

/-- The line the cursor is on (`self.lines[self.cursor_row]`-style access;
out of range yields the empty line, mirroring `get(..).unwrap_or` uses). -/
def TextEditor.lineAt (ed : TextEditor) (r : Nat) : Line :=
  ed.lines.getD r []

/-- `TextEditor::current_line_len`: scalar length of the cursor's line
(`0` when the row is out of range). -/
def TextEditor.current_line_len (ed : TextEditor) : Nat :=
  (ed.lineAt ed.cursor_row).length

/-- `TextEditor::create_snapshot`. -/
def TextEditor.create_snapshot (ed : TextEditor) : EditorSnapshot :=
  { lines := ed.lines, cursor_row := ed.cursor_row, cursor_col := ed.cursor_col }

/-- `TextEditor::restore_snapshot`. -/
def TextEditor.restore_snapshot (ed : TextEditor) (s : EditorSnapshot) : TextEditor :=
  { ed with lines := s.lines, cursor_row := s.cursor_row, cursor_col := s.cursor_col }

/-- `TextEditor::save_snapshot`: push the current state onto the undo
stack, evict the oldest entry past `MAX_UNDO_HISTORY`, clear redo. -/
def TextEditor.save_snapshot (ed : TextEditor) : TextEditor :=
  let undo1 := ed.undo_stack ++ [ed.create_snapshot]
  let undo2 := if undo1.length > MAX_UNDO_HISTORY then undo1.eraseIdx 0 else undo1
  { ed with undo_stack := undo2, redo_stack := [] }

/-- `TextEditor::undo`: pop the most recent snapshot (`Vec::pop` takes the
last element), push the current state onto redo, restore; returns whether
anything was undone. -/
def TextEditor.undo (ed : TextEditor) : Bool × TextEditor :=
  match ed.undo_stack.getLast? with
  | Option.none => (false, ed)
  | Option.some snapshot =>
    (true,
      (({ ed with undo_stack := ed.undo_stack.dropLast,
                  redo_stack := ed.redo_stack ++ [ed.create_snapshot] })).restore_snapshot snapshot)

/-- `TextEditor::redo`: symmetric to `undo`. -/
def TextEditor.redo (ed : TextEditor) : Bool × TextEditor :=
  match ed.redo_stack.getLast? with
  | Option.none => (false, ed)
  | Option.some snapshot =>
    (true,
      (({ ed with redo_stack := ed.redo_stack.dropLast,
                  undo_stack := ed.undo_stack ++ [ed.create_snapshot] })).restore_snapshot snapshot)

/-- `TextEditor::clamp_col`: clamp the column to the current line length. -/
def TextEditor.clamp_col (ed : TextEditor) : TextEditor :=
  { ed with cursor_col := min ed.cursor_col ed.current_line_len }

/-- `TextEditor::move_up`. -/
def TextEditor.move_up (ed : TextEditor) : TextEditor :=
  if 0 < ed.cursor_row then ({ ed with cursor_row := ed.cursor_row - 1 }).clamp_col else ed

/-- `TextEditor::move_down` (`lines.len().saturating_sub(1)` is `Nat`
truncated subtraction). -/
def TextEditor.move_down (ed : TextEditor) : TextEditor :=
  if ed.cursor_row < ed.lines.length - 1 then
    ({ ed with cursor_row := ed.cursor_row + 1 }).clamp_col
  else ed

/-- `TextEditor::move_left`: step left, or wrap to the end of the previous
line. -/
def TextEditor.move_left (ed : TextEditor) : TextEditor :=
  if 0 < ed.cursor_col then { ed with cursor_col := ed.cursor_col - 1 }
  else if 0 < ed.cursor_row then
    let ed1 := { ed with cursor_row := ed.cursor_row - 1 }
    { ed1 with cursor_col := ed1.current_line_len }
  else ed

/-- `TextEditor::move_right`: step right, or wrap to the start of the next
line. -/
def TextEditor.move_right (ed : TextEditor) : TextEditor :=
  if ed.cursor_col < ed.current_line_len then { ed with cursor_col := ed.cursor_col + 1 }
  else if ed.cursor_row < ed.lines.length - 1 then
    { ed with cursor_row := ed.cursor_row + 1, cursor_col := 0 }
  else ed

/-- `TextEditor::move_to_line_start`. -/
def TextEditor.move_to_line_start (ed : TextEditor) : TextEditor :=
  { ed with cursor_col := 0 }

/-- `TextEditor::move_to_line_end`. -/
def TextEditor.move_to_line_end (ed : TextEditor) : TextEditor :=
  { ed with cursor_col := ed.current_line_len }

/-- `TextEditor::move_to_first_non_whitespace`. -/
def TextEditor.move_to_first_non_whitespace (ed : TextEditor) : TextEditor :=
  if ed.cursor_row < ed.lines.length then
    { ed with cursor_col := ((ed.lineAt ed.cursor_row).takeWhile char_is_whitespace).length }
  else ed

/-- Advance an index while it is in bounds and the character under it
satisfies `p` (the `while col < chars.len() && p(chars[col])` loops),
walking the suffix of the line starting at the index. -/
def scanWhileAux (p : Char → Bool) : List Char → Nat → Nat
  | [], i => i
  | c :: rest, i => if p c then scanWhileAux p rest (i + 1) else i

/-- `scanWhile p chars i`: the index reached from `i` by the
`while i < chars.len() && p(chars[i]) { i += 1 }` loop. -/
def scanWhile (p : Char → Bool) (chars : List Char) (i : Nat) : Nat :=
  scanWhileAux p (chars.drop i) i

/-- `TextEditor::move_word_forward`: skip the non-whitespace run, then the
whitespace run; wrap to the next line's first non-whitespace if the end of
the line is reached. -/
def TextEditor.move_word_forward (ed : TextEditor) : TextEditor :=
  if ed.cursor_row < ed.lines.length then
    let chars := ed.lineAt ed.cursor_row
    let col1 := scanWhile (fun c => !char_is_whitespace c) chars ed.cursor_col
    let col2 := scanWhile char_is_whitespace chars col1
    if col2 ≥ chars.length ∧ ed.cursor_row < ed.lines.length - 1 then
      ({ ed with cursor_row := ed.cursor_row + 1, cursor_col := 0 }).move_to_first_non_whitespace
    else
      { ed with cursor_col := col2 }
  else ed

/-- The `while col > 0 && chars.get(col).is_some_and(is_whitespace)` loop
of `move_word_backward`. -/
def back_ws (chars : List Char) : Nat → Nat
  | 0 => 0
  | col + 1 =>
    if (chars.get? (col + 1)).any char_is_whitespace then back_ws chars col else col + 1

/-- The `while col > 0 && chars.get(col - 1).is_some_and(!is_whitespace)`
loop of `move_word_backward`. -/
def back_word (chars : List Char) : Nat → Nat
  | 0 => 0
  | col + 1 =>
    if (chars.get? col).any (fun c => !char_is_whitespace c) then back_word chars col
    else col + 1

/-- `TextEditor::move_word_backward`: possibly wrap to the previous line's
end, then skip whitespace and a word backwards. -/
def TextEditor.move_word_backward (ed : TextEditor) : TextEditor :=
  let ed :=
    if ed.cursor_col = 0 ∧ 0 < ed.cursor_row then
      let ed1 := { ed with cursor_row := ed.cursor_row - 1 }
      { ed1 with cursor_col := ed1.current_line_len }
    else ed
  if ed.cursor_row < ed.lines.length then
    let chars := ed.lineAt ed.cursor_row
    let col0 := ed.cursor_col - 1
    { ed with cursor_col := back_word chars (back_ws chars col0) }
  else ed

/-- `TextEditor::goto_first_line`. -/
def TextEditor.goto_first_line (ed : TextEditor) : TextEditor :=
  ({ ed with cursor_row := 0 }).clamp_col

/-- `TextEditor::goto_last_line`. -/
def TextEditor.goto_last_line (ed : TextEditor) : TextEditor :=
  ({ ed with cursor_row := ed.lines.length - 1 }).clamp_col

/-- `TextEditor::insert_char`: insert at the byte index of scalar position
`cursor_col` (appends when the column is one past the end). -/
def TextEditor.insert_char (ed : TextEditor) (c : Char) : TextEditor :=
  if ed.cursor_row < ed.lines.length then
    let line := ed.lineAt ed.cursor_row
    let newLine := line.take ed.cursor_col ++ c :: line.drop ed.cursor_col
    { ed with lines := ed.lines.set ed.cursor_row newLine, cursor_col := ed.cursor_col + 1 }
  else ed

/-- `TextEditor::insert_newline`: split the current line at the cursor. -/
def TextEditor.insert_newline (ed : TextEditor) : TextEditor :=
  if ed.cursor_row < ed.lines.length then
    let line := ed.lineAt ed.cursor_row
    let before := line.take ed.cursor_col
    let after := line.drop ed.cursor_col
    { ed with lines := (ed.lines.set ed.cursor_row before).insertIdx (ed.cursor_row + 1) after,
              cursor_row := ed.cursor_row + 1, cursor_col := 0 }
  else ed

/-- `TextEditor::backspace`: remove the character before the cursor, or
merge with the previous line at column 0. -/
def TextEditor.backspace (ed : TextEditor) : TextEditor :=
  if 0 < ed.cursor_col then
    let line := ed.lineAt ed.cursor_row
    { ed with lines := ed.lines.set ed.cursor_row (line.eraseIdx (ed.cursor_col - 1)),
              cursor_col := ed.cursor_col - 1 }
  else if 0 < ed.cursor_row then
    let current_line := ed.lineAt ed.cursor_row
    let lines1 := ed.lines.eraseIdx ed.cursor_row
    let r := ed.cursor_row - 1
    let prev := lines1.getD r []
    { ed with lines := lines1.set r (prev ++ current_line), cursor_row := r,
              cursor_col := prev.length }
  else ed

/-- `TextEditor::delete`: remove the character under the cursor, or merge
with the next line at end of line. -/
def TextEditor.delete (ed : TextEditor) : TextEditor :=
  if ed.cursor_col < ed.current_line_len then
    let line := ed.lineAt ed.cursor_row
    { ed with lines := ed.lines.set ed.cursor_row (line.eraseIdx ed.cursor_col) }
  else if ed.cursor_row < ed.lines.length - 1 then
    let next_line := ed.lineAt (ed.cursor_row + 1)
    let lines1 := ed.lines.eraseIdx (ed.cursor_row + 1)
    { ed with lines := lines1.set ed.cursor_row ((lines1.getD ed.cursor_row []) ++ next_line) }
  else ed

/-- `TextEditor::delete_line`: remove the cursor's line and re-clamp the
cursor, except that the very last remaining line is cleared in place. -/
def TextEditor.delete_line (ed : TextEditor) : Option Line × TextEditor :=
  if 1 < ed.lines.length then
    let deleted := ed.lineAt ed.cursor_row
    let lines1 := ed.lines.eraseIdx ed.cursor_row
    let row1 := if ed.cursor_row ≥ lines1.length then lines1.length - 1 else ed.cursor_row
    (some deleted, ({ ed with lines := lines1, cursor_row := row1 }).clamp_col)
  else
    (some (ed.lines.getD 0 []), { ed with lines := ed.lines.set 0 [], cursor_col := 0 })

/-- `TextEditor::open_line_below`. -/
def TextEditor.open_line_below (ed : TextEditor) : TextEditor :=
  { ed with lines := ed.lines.insertIdx (ed.cursor_row + 1) [],
            cursor_row := ed.cursor_row + 1, cursor_col := 0 }

/-- `TextEditor::open_line_above`. -/
def TextEditor.open_line_above (ed : TextEditor) : TextEditor :=
  { ed with lines := ed.lines.insertIdx ed.cursor_row [], cursor_col := 0 }

/-- `TextEditor::insert_line_below`. -/
def TextEditor.insert_line_below (ed : TextEditor) (content : Line) : TextEditor :=
  { ed with lines := ed.lines.insertIdx (ed.cursor_row + 1) content }

/-- `TextEditor::replace_char`: overwrite the character under the cursor
when there is one. -/
def TextEditor.replace_char (ed : TextEditor) (c : Char) : TextEditor :=
  if ed.cursor_row < ed.lines.length then
    let chars := ed.lineAt ed.cursor_row
    if ed.cursor_col < chars.length then
      { ed with lines := ed.lines.set ed.cursor_row (chars.set ed.cursor_col c) }
    else ed
  else ed

/-- `TextEditor::char_at_cursor`. -/
def TextEditor.char_at_cursor (ed : TextEditor) : Option Char :=
  (ed.lines.get? ed.cursor_row).bind (fun line => line.get? ed.cursor_col)

/-- The `while start > 0 && !chars[start - 1].is_whitespace()` loop of
`find_word_boundaries`. -/
def fwb_start (chars : List Char) : Nat → Nat
  | 0 => 0
  | s + 1 => if !char_is_whitespace (chars.getD s ' ') then fwb_start chars s else s + 1

/-- `TextEditor::find_word_boundaries`: maximal non-whitespace run around
the cursor column. -/
def find_word_boundaries (chars : List Char) (col : Nat) : Nat × Nat :=
  (fwb_start chars col, scanWhile (fun c => !char_is_whitespace c) chars col)

/-- `TextEditor::delete_range`: delete `chars[start..end]` from the
current line, returning the deleted region. -/
def TextEditor.delete_range (ed : TextEditor) (chars : List Char) (start fin : Nat) :
    List Char × TextEditor :=
  let deleted := (chars.take fin).drop start
  let new_line := chars.take start ++ chars.drop fin
  (deleted, { ed with lines := ed.lines.set ed.cursor_row new_line })

/-- `TextEditor::delete_inner_word` (`diw`). -/
def TextEditor.delete_inner_word (ed : TextEditor) : Option (List Char) × TextEditor :=
  match ed.lines.get? ed.cursor_row with
  | Option.none => (Option.none, ed)
  | Option.some chars =>
    if chars = [] ∨ ed.cursor_col ≥ chars.length then (Option.none, ed)
    else
      let (start, fin) := find_word_boundaries chars ed.cursor_col
      let (deleted, ed1) := ed.delete_range chars start fin
      (some deleted, { ed1 with cursor_col := start })

/-- The `while start > 0 && chars[start - 1].is_whitespace()` loop of
`delete_around_word`. -/
def daw_ws_start (chars : List Char) : Nat → Nat
  | 0 => 0
  | s + 1 => if char_is_whitespace (chars.getD s ' ') then daw_ws_start chars s else s + 1

/-- `TextEditor::delete_around_word` (`daw`): the inner word plus the
trailing whitespace run, or the leading one if no trailing run exists
(the final column clamp uses the byte length of the new line, as the
source does). -/
def TextEditor.delete_around_word (ed : TextEditor) : Option (List Char) × TextEditor :=
  match ed.lines.get? ed.cursor_row with
  | Option.none => (Option.none, ed)
  | Option.some chars =>
    if chars = [] ∨ ed.cursor_col ≥ chars.length then (Option.none, ed)
    else
      let (start0, fin0) := find_word_boundaries chars ed.cursor_col
      let fin1 := scanWhile char_is_whitespace chars fin0
      let start1 := if fin1 = fin0 ∧ 0 < start0 then daw_ws_start chars start0 else start0
      let (deleted, ed1) := ed.delete_range chars start1 fin1
      (some deleted,
        { ed1 with cursor_col := min start1 (byteLen (ed1.lineAt ed1.cursor_row)) })

/-- editor.rs `BracketMatch`: bracket pair and signed depth counter
(`openCh`/`closeCh` stand for the source fields `open`/`close`, which are
reserved words in Lean). -/
structure BracketMatch where
  openCh : Char
  closeCh : Char
  depth : Int
deriving DecidableEq, Repr

/-- `BracketMatch::new`: depth seeded at 1. -/
def BracketMatch.new (o c : Char) : BracketMatch :=
  { openCh := o, closeCh := c, depth := 1 }

/-- `BracketMatch::check`: increment on opens, decrement on closes,
report the column where the depth reaches 0. -/
def BracketMatch.check (m : BracketMatch) (c : Char) (col : Nat) : BracketMatch × Option Nat :=
  if c = m.openCh then ({ m with depth := m.depth + 1 }, Option.none)
  else if c = m.closeCh then
    let m1 := { m with depth := m.depth - 1 }
    if m1.depth = 0 then (m1, some col) else (m1, Option.none)
  else (m, Option.none)

/-- Forward half of `BracketMatch::scan_line`
(`chars.iter().enumerate().skip(start)`), walking the suffix of the line
with absolute column numbers. -/
def BracketMatch.scanForward (m : BracketMatch) : List Char → Nat → BracketMatch × Option Nat
  | [], _ => (m, Option.none)
  | c :: rest, col =>
    match m.check c col with
    | (m1, some r) => (m1, some r)
    | (m1, Option.none) => m1.scanForward rest (col + 1)

/-- Backward half of `BracketMatch::scan_line`
(`for col in (0..=start).rev()`); callers keep `start` within the line. -/
def BracketMatch.scanBackward (m : BracketMatch) (chars : List Char) : Nat → BracketMatch × Option Nat
  | 0 =>
    match m.check (chars.getD 0 ' ') 0 with
    | (m1, some r) => (m1, some r)
    | (m1, Option.none) => (m1, Option.none)
  | col + 1 =>
    match m.check (chars.getD (col + 1) ' ') (col + 1) with
    | (m1, some r) => (m1, some r)
    | (m1, Option.none) => m1.scanBackward chars col

/-- Swap the open/close roles (the `std::mem::swap` in `scan_line`). -/
def BracketMatch.swap (m : BracketMatch) : BracketMatch :=
  { m with openCh := m.closeCh, closeCh := m.openCh }

/-- `BracketMatch::scan_line`: forward scans run as-is; backward scans run
with the open/close roles swapped (on an early return the source leaves
the matcher swapped; it is then discarded by every caller, so the result
is returned unchanged). -/
def BracketMatch.scan_line (m : BracketMatch) (chars : List Char) (start : Nat)
    (forward : Bool) : BracketMatch × Option Nat :=
  if forward then m.scanForward (chars.drop start) start
  else
    match m.swap.scanBackward chars start with
    | (m1, some r) => (m1, some r)
    | (m1, Option.none) => (m1.swap, Option.none)

/-- Row loop of `TextEditor::search_bracket_forward`, walking the rows
from the cursor's row downwards with absolute row numbers. -/
def sbfAux (m : BracketMatch) : List Line → Nat → Nat → Option (Nat × Nat)
  | [], _, _ => Option.none
  | line :: rest, row, col =>
    match m.scan_line line col true with
    | (_, some r) => some (row, r)
    | (m1, Option.none) => sbfAux m1 rest (row + 1) 0

/-- `TextEditor::search_bracket_forward`: scan from one past the cursor to
the end of the buffer. -/
def TextEditor.search_bracket_forward (ed : TextEditor) (o c : Char) : Option (Nat × Nat) :=
  sbfAux (BracketMatch.new o c) (ed.lines.drop ed.cursor_row) ed.cursor_row (ed.cursor_col + 1)

/-- Starting column for a backward scan of the row at the head of the
remaining row list (`get_line_end_col`: scalar length minus one, `-1` when
no row remains). -/
def lineEndCol : List (Nat × Line) → Int
  | [] => -1
  | (_, l) :: _ => (l.length : Int) - 1

/-- Row loop of `TextEditor::search_bracket_backward`: the source counts
an `i32` row down from the cursor's row to `-1`, skipping rows whose
starting column is negative (empty lines); modelled as a walk over the
rows `cursor_row, cursor_row - 1, …, 0` paired with their indices. -/
def sbbAux (m : BracketMatch) : List (Nat × Line) → Int → Option (Nat × Nat)
  | [], _ => Option.none
  | (row, line) :: rest, col =>
    if col < 0 then sbbAux m rest (lineEndCol rest)
    else
      match m.scan_line line col.toNat false with
      | (_, some r) => some (row, r)
      | (m1, Option.none) => sbbAux m1 rest (lineEndCol rest)

/-- `TextEditor::search_bracket_backward`: scan from one before the cursor
back to the start of the buffer. -/
def TextEditor.search_bracket_backward (ed : TextEditor) (o c : Char) : Option (Nat × Nat) :=
  let rows := ((List.range (ed.cursor_row + 1)).map
    (fun r => (r, ed.lines.getD r []))).reverse
  sbbAux (BracketMatch.new o c) rows ((ed.cursor_col : Int) - 1)

/-- `TextEditor::find_matching_bracket` (`%`): pick the pair and direction
from the character under the cursor. -/
def TextEditor.find_matching_bracket (ed : TextEditor) : Option (Nat × Nat) :=
  match ed.char_at_cursor with
  | Option.none => Option.none
  | Option.some ch =>
    let table : Option (Char × Char × Bool) :=
      if ch = '(' then some ('(', ')', true)
      else if ch = ')' then some ('(', ')', false)
      else if ch = '{' then some ('{', '}', true)
      else if ch = '}' then some ('{', '}', false)
      else if ch = '[' then some ('[', ']', true)
      else if ch = ']' then some ('[', ']', false)
      else if ch = '<' then some ('<', '>', true)
      else if ch = '>' then some ('<', '>', false)
      else Option.none
    match table with
    | Option.none => Option.none
    | Option.some (o, c, forward) =>
      if forward then ed.search_bracket_forward o c else ed.search_bracket_backward o c

/-- render/editor.rs `get_selection_bounds`: order the fixed visual anchor
`(vr, vc)` and the live cursor into a `(start, end)` pair. -/
def get_selection_bounds (ed : TextEditor) (vr vc : Nat) : Nat × Nat × Nat × Nat :=
  if vr < ed.cursor_row ∨ (vr = ed.cursor_row ∧ vc ≤ ed.cursor_col) then
    (vr, vc, ed.cursor_row, ed.cursor_col)
  else
    (ed.cursor_row, ed.cursor_col, vr, vc)

/-- handlers/visual.rs `get_visual_selection`: the text inside the
normalized selection (end column inclusive). -/
def get_visual_selection (ed : TextEditor) (vr vc : Nat) : List Char :=
  let (start_row, start_col, end_row, end_col) := get_selection_bounds ed vr vc
  if start_row = end_row then
    match ed.lines.get? start_row with
    | Option.none => []
    | Option.some line =>
      let s := min start_col line.length
      let e := min (end_col + 1) line.length
      (line.take e).drop s
  else
    (List.range (end_row + 1 - start_row)).flatMap (fun i =>
      let row := start_row + i
      match ed.lines.get? row with
      | Option.none => []
      | Option.some line =>
        if row = start_row then line.drop (min start_col line.length) ++ ['\n']
        else if row = end_row then line.take (min (end_col + 1) line.length)
        else line ++ ['\n'])

/-- The `for _ in start_row..end_row` removal loop of
`delete_visual_selection`: remove the line after `start_row` a fixed
number of times, as long as one exists. -/
def removeLoop (lines : List Line) (start_row : Nat) : Nat → List Line
  | 0 => lines
  | k + 1 =>
    removeLoop (if start_row + 1 < lines.length then lines.eraseIdx (start_row + 1) else lines)
      start_row k

/-- Buffer mutation of handlers/visual.rs `delete_visual_selection`, for
already-normalized bounds: single-line selections cut the char range out
of the line; multi-line selections keep the start of the first line and
the end of the last line, remove the lines in between, and merge. -/
def dvs_apply (ed : TextEditor) (start_row start_col end_row end_col : Nat) : TextEditor :=
  if start_row = end_row then
    match ed.lines.get? start_row with
    | Option.none => ed
    | Option.some line =>
      let s := min start_col line.length
      let e := min (end_col + 1) line.length
      { ed with lines := ed.lines.set start_row (line.take s ++ line.drop e) }
  else
    let firstLine := ed.lines.getD start_row []
    let lastLine := ed.lines.getD end_row []
    let first_part := firstLine.take (min start_col firstLine.length)
    let last_part := lastLine.drop (min (end_col + 1) lastLine.length)
    let lines1 := removeLoop ed.lines start_row (end_row - start_row)
    let lines2 :=
      if start_row < lines1.length then lines1.set start_row (first_part ++ last_part)
      else lines1
    { ed with lines := lines2 }

/-- handlers/visual.rs `delete_visual_selection`: remove the normalized
selection (end column inclusive) and move the cursor to the selection
start.  Returns the yanked text together with the new editor. -/
def delete_visual_selection (ed : TextEditor) (vr vc : Nat) : List Char × TextEditor :=
  let (start_row, start_col, end_row, end_col) := get_selection_bounds ed vr vc
  let selected := get_visual_selection ed vr vc
  let ed1 := dvs_apply ed start_row start_col end_row end_col
  (selected, { ed1 with cursor_row := start_row, cursor_col := start_col })

/- ===================== app_state.rs ===================== -/

/-- app_state.rs `StateFileStatus`. -/
inductive StateFileStatus where
  | Read
  | NotRead
deriving DecidableEq, Repr

/-- app_state.rs `CheckProgress` (`NotStarted` is named `None` in the
source; renamed `NoResult` here because `None` clashes with `Option`). -/
inductive CheckProgress where
  | NoResult
  | Checking
  | Done
  | Pending
deriving DecidableEq, Repr

/-- The fields of app_state.rs `Exercise` that the state machine uses:
its (immutable) name and its mutable `done` flag. -/
structure Exercise where
  name : List Char
  done : Bool
deriving DecidableEq, Repr

/-- The fields of app_state.rs `AppState` relevant to session state and
bulk checking. -/
structure AppState where
  current_exercise_ind : Nat
  exercises : List Exercise
  n_done : Nat
deriving DecidableEq, Repr

/-- app_state.rs `STATE_FILE_HEADER` (`b"DON'T EDIT THIS FILE!\n\n"`). -/
def STATE_FILE_HEADER : List Char := ("DON'T EDIT THIS FILE!\n\n" : String).toList

/-- The `for exercise in &self.exercises { if exercise.done { push(b'\n');
extend(name) } }` loop of `AppState::write`. -/
def done_names_block : List Exercise → List Char
  | [] => []
  | ex :: rest => (if ex.done then '\n' :: ex.name else []) ++ done_names_block rest

/-- The bytes `AppState::write` writes to the state file: header, current
exercise name, then a blank-line-separated list of done names. -/
def AppState.write_buf (st : AppState) : List Char :=
  STATE_FILE_HEADER ++ (st.exercises.getD st.current_exercise_ind ⟨[], false⟩).name
    ++ '\n' :: done_names_block st.exercises

/-- The `for (ind, exercise) in exercises.iter_mut().enumerate()` loop of
`parse_state_file`: mark exercises whose name is in the done set, count
them, and remember the (last) index whose name equals the current name. -/
def parse_go (doneNames : List (List Char)) (curName : List Char) :
    List Exercise → Nat → Nat → Nat → Nat × Nat × List Exercise
  | [], _, curInd, nDone => (curInd, nDone, [])
  | ex :: rest, ind, curInd, nDone =>
    let isDone := doneNames.contains ex.name
    let ex1 := if isDone then { ex with done := true } else ex
    let nDone1 := if isDone then nDone + 1 else nDone
    let curInd1 := if ex.name = curName then ind else curInd
    let r := parse_go doneNames curName rest (ind + 1) curInd1 nDone1
    (r.1, r.2.1, ex1 :: r.2.2)

/-- app_state.rs `parse_state_file`, applied to the already-read file
contents: skip the two header lines, read the current exercise name, check
that a separator line follows, collect done names up to the first blank
line, and mark the exercises.  Any truncated or malformed file yields the
fresh-start default `(0, 0, NotRead)` with the exercises untouched. -/
def parse_state_file (fileBuf : List Char) (exercises : List Exercise) :
    Nat × Nat × StateFileStatus × List Exercise :=
  match (splitNl fileBuf).drop 2 with
  | [] => (0, 0, StateFileStatus.NotRead, exercises)
  | currentName :: rest =>
    if currentName = [] then (0, 0, StateFileStatus.NotRead, exercises)
    else
      match rest with
      | [] => (0, 0, StateFileStatus.NotRead, exercises)
      | _ :: rest2 =>
        let doneNames := rest2.takeWhile (fun n => n ≠ [])
        let r := parse_go doneNames currentName exercises 0 0 0
        (r.1, r.2.1, StateFileStatus.Read, r.2.2)

/-- `AppState::set_status`: set the done flag of one exercise *without
saving*; errors on a bad index, returns whether the flag changed.  The
source decrements the `u16` counter `n_done` when clearing a flag; every
call site keeps `n_done` equal to the number of set flags, so `Nat`
subtraction is exact. -/
def AppState.set_status (st : AppState) (exercise_ind : Nat) (done : Bool) :
    Except Unit (AppState × Bool) :=
  match st.exercises.get? exercise_ind with
  | Option.none => Except.error ()
  | Option.some exercise =>
    if exercise.done = done then Except.ok (st, false)
    else
      Except.ok
        ({ st with exercises := st.exercises.set exercise_ind { exercise with done := done },
                   n_done := if done then st.n_done + 1 else st.n_done - 1 },
          true)

/-- The `for exercise_ind in 0..progresses.len()` loop of
`AppState::process_exercise_results`, one index at a time.  `run` models
`Exercise::run_exercise` for the *sequential retry* (its error propagates
via `?`, so the whole pass fails).  Progress-view updates
(`visualizer.update`) are pure presentation and are not modelled. -/
def process_results_go (run : Nat → Except Unit Bool) :
    List Nat → AppState → List CheckProgress → Option Nat →
    Except Unit (AppState × List CheckProgress × Option Nat)
  | [], st, progresses, first_pending => Except.ok (st, progresses, first_pending)
  | exercise_ind :: restInds, st, progresses, first_pending =>
    match progresses.getD exercise_ind CheckProgress.NoResult with
    | CheckProgress.Done =>
      match st.set_status exercise_ind true with
      | Except.error e => Except.error e
      | Except.ok (st1, _) => process_results_go run restInds st1 progresses first_pending
    | CheckProgress.Pending =>
      match st.set_status exercise_ind false with
      | Except.error e => Except.error e
      | Except.ok (st1, _) =>
        process_results_go run restInds st1 progresses
          (if first_pending = Option.none then some exercise_ind else first_pending)
    | _ =>
      -- Retry an exercise that stayed NoResult/Checking, sequentially.
      let progresses1 := progresses.set exercise_ind CheckProgress.Checking
      match run exercise_ind with
      | Except.error e => Except.error e
      | Except.ok success =>
        let fp1 :=
          if success then first_pending
          else if first_pending = Option.none then some exercise_ind else first_pending
        let progresses2 := progresses1.set exercise_ind
          (if success then CheckProgress.Done else CheckProgress.Pending)
        match st.set_status exercise_ind success with
        | Except.error e => Except.error e
        | Except.ok (st1, _) => process_results_go run restInds st1 progresses2 fp1

/-- `AppState::process_exercise_results`: sequential corrective pass over
the status array left by the parallel phase. -/
def AppState.process_exercise_results (st : AppState) (run : Nat → Except Unit Bool)
    (progresses : List CheckProgress) :
    Except Unit (AppState × List CheckProgress × Option Nat) :=
  process_results_go run (List.range progresses.length) st progresses Option.none

/-- `AppState::check_all_exercises_impl` from the join barrier onwards:
`progresses` is the per-exercise status array in which the collector
recorded the last event of each exercise during the parallel phase (an
exercise's slot holds `NoResult`/`Checking` exactly when its worker's
check errored or never finished).  The sequential pass then settles every
such slot, and the session state is written once at the end.  The final
component is the persistence log: the file contents of each state-file
write performed by the pass, in order (`process_exercise_results` and
`set_status` never write; the single `self.write()` at the end does). -/
def AppState.check_all_exercises_impl (st : AppState) (run : Nat → Except Unit Bool)
    (progresses : List CheckProgress) :
    Except Unit (AppState × List CheckProgress × Option Nat × List (List Char)) :=
  match st.process_exercise_results run progresses with
  | Except.error e => Except.error e
  | Except.ok (st1, progresses1, first_pending) =>
    Except.ok (st1, progresses1, first_pending, [st1.write_buf])

/- ============== editor operations as a step relation ============== -/

/-- One buffer/cursor operation of the editor engine: every mutating or
cursor-moving method of `TextEditor`, plus the visual-selection deletion of
handlers/visual.rs (which carries the visual anchor captured on entering
Visual mode). -/
inductive EditOp where
  | moveUp | moveDown | moveLeft | moveRight
  | lineStart | lineEnd | firstNonWs
  | wordForward | wordBackward
  | gotoFirst | gotoLast
  | insertChar (c : Char) | insertNewline
  | backspace | delete
  | deleteLine | openBelow | openAbove | insertLineBelow (content : Line)
  | replaceChar (c : Char)
  | deleteInnerWord | deleteAroundWord
  | saveSnapshot | undo | redo
  | deleteVisual (vr vc : Nat)

/-- Apply one operation to the editor state (return values such as deleted
text or the undo/redo success flag are projected away). -/
def applyOp : EditOp → TextEditor → TextEditor
  | EditOp.moveUp, ed => ed.move_up
  | EditOp.moveDown, ed => ed.move_down
  | EditOp.moveLeft, ed => ed.move_left
  | EditOp.moveRight, ed => ed.move_right
  | EditOp.lineStart, ed => ed.move_to_line_start
  | EditOp.lineEnd, ed => ed.move_to_line_end
  | EditOp.firstNonWs, ed => ed.move_to_first_non_whitespace
  | EditOp.wordForward, ed => ed.move_word_forward
  | EditOp.wordBackward, ed => ed.move_word_backward
  | EditOp.gotoFirst, ed => ed.goto_first_line
  | EditOp.gotoLast, ed => ed.goto_last_line
  | EditOp.insertChar c, ed => ed.insert_char c
  | EditOp.insertNewline, ed => ed.insert_newline
  | EditOp.backspace, ed => ed.backspace
  | EditOp.delete, ed => ed.delete
  | EditOp.deleteLine, ed => ed.delete_line.2
  | EditOp.openBelow, ed => ed.open_line_below
  | EditOp.openAbove, ed => ed.open_line_above
  | EditOp.insertLineBelow content, ed => ed.insert_line_below content
  | EditOp.replaceChar c, ed => ed.replace_char c
  | EditOp.deleteInnerWord, ed => ed.delete_inner_word.2
  | EditOp.deleteAroundWord, ed => ed.delete_around_word.2
  | EditOp.saveSnapshot, ed => ed.save_snapshot
  | EditOp.undo, ed => ed.undo.2
  | EditOp.redo, ed => ed.redo.2
  | EditOp.deleteVisual vr vc, ed => (delete_visual_selection ed vr vc).2

/-- Side condition of an operation: the visual anchor is a valid buffer
position (it always is in the program: the anchor is the cursor position
captured on entering Visual mode, and Visual mode admits only motions, so
the lines do not change while the anchor is alive).  All other operations
are unconditional. -/
def ArgsOk : EditOp → TextEditor → Prop
  | EditOp.deleteVisual vr vc, ed =>
    vr < ed.lines.length ∧ vc ≤ (ed.lines.getD vr []).length
  | _, _ => True

/-- A snapshot (or the visible part of an editor) is well-formed: the lines
are non-empty, the cursor row indexes them, and the cursor column is at
most the scalar length of its line. -/
def SnapOk (s : EditorSnapshot) : Prop :=
  s.lines ≠ [] ∧ s.cursor_row < s.lines.length ∧
    s.cursor_col ≤ (s.lines.getD s.cursor_row []).length

/-- Full editor well-formedness: the visible state and every stored
snapshot are well-formed. -/
def TextEditor.Ok (ed : TextEditor) : Prop :=
  SnapOk ed.create_snapshot ∧ (∀ s ∈ ed.undo_stack, SnapOk s) ∧
    ∀ s ∈ ed.redo_stack, SnapOk s

/-- The editor states the program can actually be in: freshly constructed
from some text, or reached from one by operations (with valid anchors). -/
inductive Reachable : TextEditor → Prop
  | init (text : List Char) : Reachable (TextEditor.new text)
  | step (ed : TextEditor) (op : EditOp) :
      Reachable ed → ArgsOk op ed → Reachable (applyOp op ed)

example : rustLines ("a\r\nb" : String).toList = [['a'], ['b']] := by decide
example : rustLines ("a\n" : String).toList = [['a']] := by decide
example : rustLines ("" : String).toList = [] := by decide
example : rustLines ("a\r" : String).toList = [['a', '\r']] := by decide
example : (TextEditor.new ("x\ny" : String).toList).content = ['x', '\n', 'y'] := by decide

/- ===================== claims ===================== -/

/-- C7: bracket matching with a signed depth counter seeded at 1 finds the
paired bracket: in the buffer `(a(b)c)`, from the first `(` at (0,0) the
forward search returns the final `)` at (0,6), and from that `)` the
backward search returns the first `(` at (0,0). -/
theorem C7_bracket_match :
    (TextEditor.new ("(a(b)c)" : String).toList).find_matching_bracket = some (0, 6) ∧
    ({ TextEditor.new ("(a(b)c)" : String).toList with
        cursor_col := 6 }).find_matching_bracket = some (0, 0) := by
  decide

/-- C8 counterexample: on the single-line buffer `  foo bar  ` with the
cursor inside `foo` (column 2), `delete_around_word` consumes only the
single space adjacent to `foo` — the deleted region is `foo ` and the
resulting line `  bar  ` still ends with the double space — so the claim
that it consumes a trailing *double* space is false. -/
theorem C8_daw_no_double_space :
    (({ TextEditor.new ("  foo bar  " : String).toList with
        cursor_col := 2 }).delete_around_word.1 = some ("foo " : String).toList ∧
     ({ TextEditor.new ("  foo bar  " : String).toList with
        cursor_col := 2 }).delete_around_word.2.lines = [("  bar  " : String).toList]) ∧
    ¬ ({ TextEditor.new ("  foo bar  " : String).toList with
        cursor_col := 2 }).delete_around_word.1 = some ("foo  " : String).toList := by
  decide

/-- C8 (amended): for the single-line buffer `  foo bar  ` with the cursor
inside `foo` (column 2, 3 or 4), `delete_inner_word` leaves `   bar  `,
returns `foo`, and moves the cursor to the region start (column 2);
`delete_around_word` additionally consumes the adjacent whitespace run
(trailing preferred — here the single space between `foo` and `bar`),
leaving `  bar  ` and returning the deleted region `foo `. -/
theorem C8_text_objects :
    (∀ col ∈ [2, 3, 4],
      (({ TextEditor.new ("  foo bar  " : String).toList with
          cursor_col := col }).delete_inner_word.1 = some ("foo" : String).toList ∧
       ({ TextEditor.new ("  foo bar  " : String).toList with
          cursor_col := col }).delete_inner_word.2.lines = [("   bar  " : String).toList] ∧
       ({ TextEditor.new ("  foo bar  " : String).toList with
          cursor_col := col }).delete_inner_word.2.cursor_col = 2)) ∧
    (∀ col ∈ [2, 3, 4],
      (({ TextEditor.new ("  foo bar  " : String).toList with
          cursor_col := col }).delete_around_word.1 = some ("foo " : String).toList ∧
       ({ TextEditor.new ("  foo bar  " : String).toList with
          cursor_col := col }).delete_around_word.2.lines = [("  bar  " : String).toList] ∧
       ({ TextEditor.new ("  foo bar  " : String).toList with
          cursor_col := col }).delete_around_word.2.cursor_col = 2)) := by
  decide

/-- C10: undo and redo are mutual inverses on non-empty stacks: with a
non-empty undo stack, `undo()` then `redo()` both report success and
restore the lines and cursor to their pre-undo values; symmetrically for a
non-empty redo stack. -/
theorem C10_undo_redo_mutual_inverse (ed : TextEditor) :
    (ed.undo_stack ≠ [] →
      ed.undo.1 = true ∧ ed.undo.2.redo.1 = true ∧
      ed.undo.2.redo.2.lines = ed.lines ∧
      ed.undo.2.redo.2.cursor_row = ed.cursor_row ∧
      ed.undo.2.redo.2.cursor_col = ed.cursor_col) ∧
    (ed.redo_stack ≠ [] →
      ed.redo.1 = true ∧ ed.redo.2.undo.1 = true ∧
      ed.redo.2.undo.2.lines = ed.lines ∧
      ed.redo.2.undo.2.cursor_row = ed.cursor_row ∧
      ed.redo.2.undo.2.cursor_col = ed.cursor_col) := by
  constructor
  · intro h
    obtain ⟨s, hs⟩ := Option.isSome_iff_exists.mp (List.getLast?_isSome.mpr h)
    simp [TextEditor.undo, TextEditor.redo, hs, TextEditor.restore_snapshot,
      TextEditor.create_snapshot, List.getLast?_concat]
  · intro h
    obtain ⟨s, hs⟩ := Option.isSome_iff_exists.mp (List.getLast?_isSome.mpr h)
    simp [TextEditor.undo, TextEditor.redo, hs, TextEditor.restore_snapshot,
      TextEditor.create_snapshot, List.getLast?_concat]

/-- A concrete editor state with one snapshot on each history stack. -/
def edWitness : TextEditor :=
  { lines := [['a']], cursor_row := 0, cursor_col := 1, scroll_offset := 0,
    undo_stack := [{ lines := [['b']], cursor_row := 0, cursor_col := 0 }],
    redo_stack := [{ lines := [['c']], cursor_row := 0, cursor_col := 0 }] }

/-- C10 witness: the mutual-inverse law applied at a concrete state whose
undo and redo stacks are both non-empty. -/
theorem C10_undo_redo_mutual_inverse_witness :
    (edWitness.undo.1 = true ∧ edWitness.undo.2.redo.1 = true ∧
      edWitness.undo.2.redo.2.lines = edWitness.lines ∧
      edWitness.undo.2.redo.2.cursor_row = edWitness.cursor_row ∧
      edWitness.undo.2.redo.2.cursor_col = edWitness.cursor_col) ∧
    (edWitness.redo.1 = true ∧ edWitness.redo.2.undo.1 = true ∧
      edWitness.redo.2.undo.2.lines = edWitness.lines ∧
      edWitness.redo.2.undo.2.cursor_row = edWitness.cursor_row ∧
      edWitness.redo.2.undo.2.cursor_col = edWitness.cursor_col) := by
  have h := C10_undo_redo_mutual_inverse edWitness
  exact ⟨h.1 (by decide), h.2 (by decide)⟩

/- ===== helper lemmas for the buffer/cursor invariant (C4, C5) ===== -/

theorem Ok_def (ed : TextEditor) : ed.Ok ↔
    ((ed.lines ≠ [] ∧ ed.cursor_row < ed.lines.length ∧
      ed.cursor_col ≤ (ed.lines.getD ed.cursor_row []).length) ∧
     (∀ s ∈ ed.undo_stack, SnapOk s) ∧ (∀ s ∈ ed.redo_stack, SnapOk s)) :=
  Iff.rfl

theorem getD_set_self {α : Type} (l : List α) (i : Nat) (a d : α) (h : i < l.length) :
    (l.set i a).getD i d = a := by
  rw [List.getD_eq_getElem?_getD, List.getElem?_set_self h]
  rfl

theorem getD_set_ne {α : Type} (l : List α) {i j : Nat} (a d : α) (h : i ≠ j) :
    (l.set i a).getD j d = l.getD j d := by
  rw [List.getD_eq_getElem?_getD, List.getElem?_set_ne h, ← List.getD_eq_getElem?_getD]

theorem getD_eraseIdx {α : Type} (l : List α) (i j : Nat) (d : α) :
    (l.eraseIdx i).getD j d = if j < i then l.getD j d else l.getD (j + 1) d := by
  rw [List.getD_eq_getElem?_getD, List.getElem?_eraseIdx]
  split <;> rw [← List.getD_eq_getElem?_getD]

theorem getD_insertIdx_of_lt {α : Type} (l : List α) (x d : α) (n k : Nat) (hn : k < n)
    (hk : k < l.length) : (l.insertIdx n x).getD k d = l.getD k d := by
  have h1 : k < (l.insertIdx n x).length := lt_of_lt_of_le hk (List.length_le_length_insertIdx l x n)
  rw [List.getD_eq_getElem?_getD, List.getD_eq_getElem?_getD, List.getElem?_eq_getElem h1,
    List.getElem?_eq_getElem hk, List.getElem_insertIdx_of_lt l x n k hn hk]

theorem ne_nil_of_length_pos {α : Type} {l : List α} (h : 0 < l.length) : l ≠ [] :=
  List.length_pos.mp h

theorem scanWhileAux_le (p : Char → Bool) : ∀ (l : List Char) (i : Nat),
    scanWhileAux p l i ≤ i + l.length
  | [], i => by simp [scanWhileAux]
  | c :: rest, i => by
    simp only [scanWhileAux, List.length_cons]
    split
    · have h := scanWhileAux_le p rest (i + 1)
      omega
    · omega

theorem scanWhile_le (p : Char → Bool) (chars : List Char) {i : Nat} (h : i ≤ chars.length) :
    scanWhile p chars i ≤ chars.length := by
  have := scanWhileAux_le p (chars.drop i) i
  simp only [List.length_drop] at this
  unfold scanWhile
  omega

theorem back_ws_le (chars : List Char) : ∀ c, back_ws chars c ≤ c
  | 0 => le_refl 0
  | c + 1 => by
    simp only [back_ws]
    split
    · exact (back_ws_le chars c).trans (Nat.le_succ c)
    · exact le_refl _

theorem back_word_le (chars : List Char) : ∀ c, back_word chars c ≤ c
  | 0 => le_refl 0
  | c + 1 => by
    simp only [back_word]
    split
    · exact (back_word_le chars c).trans (Nat.le_succ c)
    · exact le_refl _

theorem fwb_start_le (chars : List Char) : ∀ c, fwb_start chars c ≤ c
  | 0 => le_refl 0
  | c + 1 => by
    simp only [fwb_start]
    split
    · exact (fwb_start_le chars c).trans (Nat.le_succ c)
    · exact le_refl _

theorem daw_ws_start_le (chars : List Char) : ∀ c, daw_ws_start chars c ≤ c
  | 0 => le_refl 0
  | c + 1 => by
    simp only [daw_ws_start]
    split
    · exact (daw_ws_start_le chars c).trans (Nat.le_succ c)
    · exact le_refl _

theorem ok_clamp_col {ed : TextEditor} (h1 : ed.lines ≠ []) (h2 : ed.cursor_row < ed.lines.length)
    (hu : ∀ s ∈ ed.undo_stack, SnapOk s) (hr : ∀ s ∈ ed.redo_stack, SnapOk s) :
    ed.clamp_col.Ok := by
  rw [Ok_def]
  refine ⟨⟨h1, h2, ?_⟩, hu, hr⟩
  simp [TextEditor.clamp_col, TextEditor.current_line_len, TextEditor.lineAt]

theorem ok_move_up {ed : TextEditor} (h : ed.Ok) : ed.move_up.Ok := by
  rw [Ok_def] at h
  obtain ⟨⟨h1, h2, h3⟩, hu, hr⟩ := h
  unfold TextEditor.move_up
  split
  · exact ok_clamp_col h1 (show ed.cursor_row - 1 < ed.lines.length by omega) hu hr
  · exact ⟨⟨h1, h2, h3⟩, hu, hr⟩

theorem ok_move_down {ed : TextEditor} (h : ed.Ok) : ed.move_down.Ok := by
  rw [Ok_def] at h
  obtain ⟨⟨h1, h2, h3⟩, hu, hr⟩ := h
  unfold TextEditor.move_down
  split
  · next hlt => exact ok_clamp_col h1 (show ed.cursor_row + 1 < ed.lines.length by omega) hu hr
  · exact ⟨⟨h1, h2, h3⟩, hu, hr⟩

theorem ok_move_left {ed : TextEditor} (h : ed.Ok) : ed.move_left.Ok := by
  rw [Ok_def] at h
  obtain ⟨⟨h1, h2, h3⟩, hu, hr⟩ := h
  unfold TextEditor.move_left
  split
  · exact ⟨⟨h1, h2,
      show ed.cursor_col - 1 ≤ (ed.lines.getD ed.cursor_row []).length by omega⟩, hu, hr⟩
  · split
    · refine ⟨⟨h1, show ed.cursor_row - 1 < ed.lines.length by omega, ?_⟩, hu, hr⟩
      simp [TextEditor.current_line_len, TextEditor.lineAt, TextEditor.create_snapshot]
    · exact ⟨⟨h1, h2, h3⟩, hu, hr⟩

theorem ok_move_right {ed : TextEditor} (h : ed.Ok) : ed.move_right.Ok := by
  rw [Ok_def] at h
  obtain ⟨⟨h1, h2, h3⟩, hu, hr⟩ := h
  unfold TextEditor.move_right
  split
  · next hlt =>
    refine ⟨⟨h1, h2, ?_⟩, hu, hr⟩
    simp only [TextEditor.current_line_len, TextEditor.lineAt] at hlt
    show ed.cursor_col + 1 ≤ (ed.lines.getD ed.cursor_row []).length
    omega
  · split
    · next hlt =>
      exact ⟨⟨h1, show ed.cursor_row + 1 < ed.lines.length by omega,
        show (0 : Nat) ≤ _ by omega⟩, hu, hr⟩
    · exact ⟨⟨h1, h2, h3⟩, hu, hr⟩

theorem ok_move_to_line_start {ed : TextEditor} (h : ed.Ok) : ed.move_to_line_start.Ok := by
  rw [Ok_def] at h
  obtain ⟨⟨h1, h2, _⟩, hu, hr⟩ := h
  exact ⟨⟨h1, h2, show (0 : Nat) ≤ _ by omega⟩, hu, hr⟩

theorem ok_move_to_line_end {ed : TextEditor} (h : ed.Ok) : ed.move_to_line_end.Ok := by
  rw [Ok_def] at h
  obtain ⟨⟨h1, h2, _⟩, hu, hr⟩ := h
  refine ⟨⟨h1, h2, ?_⟩, hu, hr⟩
  simp [TextEditor.move_to_line_end, TextEditor.current_line_len, TextEditor.lineAt,
    TextEditor.create_snapshot]

theorem ok_move_to_first_non_whitespace {ed : TextEditor} (h : ed.Ok) :
    ed.move_to_first_non_whitespace.Ok := by
  rw [Ok_def] at h
  obtain ⟨⟨h1, h2, h3⟩, hu, hr⟩ := h
  have hle : ((ed.lines.getD ed.cursor_row []).takeWhile char_is_whitespace).length ≤
      (ed.lines.getD ed.cursor_row []).length :=
    List.Sublist.length_le (List.takeWhile_sublist _)
  unfold TextEditor.move_to_first_non_whitespace
  split
  all_goals refine ⟨⟨h1, h2, ?_⟩, hu, hr⟩
  all_goals simp only [TextEditor.create_snapshot, TextEditor.lineAt]
  all_goals omega

theorem ok_goto_first_line {ed : TextEditor} (h : ed.Ok) : ed.goto_first_line.Ok := by
  rw [Ok_def] at h
  obtain ⟨⟨h1, h2, _⟩, hu, hr⟩ := h
  exact ok_clamp_col h1 (show (0 : Nat) < ed.lines.length by omega) hu hr

theorem ok_goto_last_line {ed : TextEditor} (h : ed.Ok) : ed.goto_last_line.Ok := by
  rw [Ok_def] at h
  obtain ⟨⟨h1, h2, _⟩, hu, hr⟩ := h
  exact ok_clamp_col h1 (show ed.lines.length - 1 < ed.lines.length by omega) hu hr

theorem ok_mk {lines : List Line} {row col : Nat} (so : Nat) {us rs : List EditorSnapshot}
    (h1 : lines ≠ []) (h2 : row < lines.length) (h3 : col ≤ (lines.getD row []).length)
    (hu : ∀ s ∈ us, SnapOk s) (hr : ∀ s ∈ rs, SnapOk s) :
    (TextEditor.mk lines row col so us rs).Ok :=
  ⟨⟨h1, h2, h3⟩, hu, hr⟩

theorem ok_move_word_forward {ed : TextEditor} (h : ed.Ok) : ed.move_word_forward.Ok := by
  rw [Ok_def] at h
  obtain ⟨⟨h1, h2, h3⟩, hu, hr⟩ := h
  have e1 : scanWhile (fun c => !char_is_whitespace c) (ed.lines.getD ed.cursor_row [])
      ed.cursor_col ≤ (ed.lines.getD ed.cursor_row []).length := scanWhile_le _ _ h3
  have e2 : scanWhile char_is_whitespace (ed.lines.getD ed.cursor_row [])
      (scanWhile (fun c => !char_is_whitespace c) (ed.lines.getD ed.cursor_row [])
        ed.cursor_col) ≤ (ed.lines.getD ed.cursor_row []).length := scanWhile_le _ _ e1
  unfold TextEditor.move_word_forward
  simp only [TextEditor.lineAt]
  split
  all_goals try split
  all_goals first
    | exact ⟨⟨h1, h2, h3⟩, hu, hr⟩
    | exact ok_move_to_first_non_whitespace (ok_mk _ h1 (by omega) (by omega) hu hr)
    | exact ok_mk _ h1 h2 e2 hu hr

theorem ok_move_word_backward {ed : TextEditor} (h : ed.Ok) : ed.move_word_backward.Ok := by
  rw [Ok_def] at h
  obtain ⟨⟨h1, h2, h3⟩, hu, hr⟩ := h
  unfold TextEditor.move_word_backward
  by_cases hc : ed.cursor_col = 0 ∧ 0 < ed.cursor_row
  · rw [if_pos hc]
    have h2r : ed.cursor_row - 1 < ed.lines.length := by omega
    have hb : back_word (ed.lines.getD (ed.cursor_row - 1) [])
        (back_ws (ed.lines.getD (ed.cursor_row - 1) [])
          ((ed.lines.getD (ed.cursor_row - 1) []).length - 1)) ≤
        (ed.lines.getD (ed.cursor_row - 1) []).length := by
      have i1 := back_ws_le (ed.lines.getD (ed.cursor_row - 1) [])
        ((ed.lines.getD (ed.cursor_row - 1) []).length - 1)
      have i2 := back_word_le (ed.lines.getD (ed.cursor_row - 1) [])
        (back_ws (ed.lines.getD (ed.cursor_row - 1) [])
          ((ed.lines.getD (ed.cursor_row - 1) []).length - 1))
      omega
    simp only [TextEditor.lineAt, TextEditor.current_line_len]
    split
    all_goals first
      | exact ok_mk _ h1 h2r hb hu hr
      | (next hnr => exact absurd h2r hnr)
      | exact ok_mk _ h1 h2r (by simpa using hb) hu hr
  · rw [if_neg hc]
    have hb : back_word (ed.lines.getD ed.cursor_row [])
        (back_ws (ed.lines.getD ed.cursor_row []) (ed.cursor_col - 1)) ≤
        (ed.lines.getD ed.cursor_row []).length := by
      have i1 := back_ws_le (ed.lines.getD ed.cursor_row []) (ed.cursor_col - 1)
      have i2 := back_word_le (ed.lines.getD ed.cursor_row [])
        (back_ws (ed.lines.getD ed.cursor_row []) (ed.cursor_col - 1))
      omega
    simp only [TextEditor.lineAt, TextEditor.current_line_len]
    split
    all_goals first
      | exact ok_mk _ h1 h2 hb hu hr
      | exact ⟨⟨h1, h2, h3⟩, hu, hr⟩

theorem ok_insert_char {ed : TextEditor} (c : Char) (h : ed.Ok) : (ed.insert_char c).Ok := by
  rw [Ok_def] at h
  obtain ⟨⟨h1, h2, h3⟩, hu, hr⟩ := h
  unfold TextEditor.insert_char
  simp only [TextEditor.lineAt]
  rw [if_pos h2]
  refine ok_mk _ (ne_nil_of_length_pos (by simp only [List.length_set]; omega)) ?_ ?_ hu hr
  · simp only [List.length_set]; omega
  · rw [getD_set_self _ _ _ _ h2]
    simp only [List.length_append, List.length_take, List.length_cons, List.length_drop]
    omega

theorem ok_insert_newline {ed : TextEditor} (h : ed.Ok) : ed.insert_newline.Ok := by
  rw [Ok_def] at h
  obtain ⟨⟨h1, h2, h3⟩, hu, hr⟩ := h
  unfold TextEditor.insert_newline
  simp only [TextEditor.lineAt]
  rw [if_pos h2]
  have hlen : ((ed.lines.set ed.cursor_row
      ((ed.lines.getD ed.cursor_row []).take ed.cursor_col)).insertIdx (ed.cursor_row + 1)
        ((ed.lines.getD ed.cursor_row []).drop ed.cursor_col)).length =
      ed.lines.length + 1 := by
    rw [List.length_insertIdx _ _ (by simp only [List.length_set]; omega)]
    simp only [List.length_set]
  refine ok_mk _ (ne_nil_of_length_pos (by omega)) (by omega) (by omega) hu hr

theorem ok_backspace {ed : TextEditor} (h : ed.Ok) : ed.backspace.Ok := by
  rw [Ok_def] at h
  obtain ⟨⟨h1, h2, h3⟩, hu, hr⟩ := h
  unfold TextEditor.backspace
  simp only [TextEditor.lineAt]
  by_cases hc : 0 < ed.cursor_col
  · rw [if_pos hc]
    refine ok_mk _ (ne_nil_of_length_pos (by simp only [List.length_set]; omega)) ?_ ?_ hu hr
    · simp only [List.length_set]; omega
    · rw [getD_set_self _ _ _ _ h2]
      have hL : ((ed.lines.getD ed.cursor_row []).eraseIdx (ed.cursor_col - 1)).length =
          (ed.lines.getD ed.cursor_row []).length - 1 := by
        rw [List.length_eraseIdx, if_pos (by omega)]
      omega
  · rw [if_neg hc]
    by_cases hrow : 0 < ed.cursor_row
    · rw [if_pos hrow]
      have hlen : (ed.lines.eraseIdx ed.cursor_row).length = ed.lines.length - 1 := by
        rw [List.length_eraseIdx, if_pos h2]
      refine ok_mk _ (ne_nil_of_length_pos (by simp only [List.length_set]; omega)) ?_ ?_ hu hr
      · simp only [List.length_set]; omega
      · rw [getD_set_self]
        · simp only [List.length_append]
          omega
        · omega
    · rw [if_neg hrow]
      exact ⟨⟨h1, h2, h3⟩, hu, hr⟩

theorem ok_delete {ed : TextEditor} (h : ed.Ok) : ed.delete.Ok := by
  rw [Ok_def] at h
  obtain ⟨⟨h1, h2, h3⟩, hu, hr⟩ := h
  unfold TextEditor.delete
  simp only [TextEditor.lineAt, TextEditor.current_line_len]
  by_cases hc : ed.cursor_col < (ed.lines.getD ed.cursor_row []).length
  · rw [if_pos hc]
    refine ok_mk _ (ne_nil_of_length_pos (by simp only [List.length_set]; omega)) ?_ ?_ hu hr
    · simp only [List.length_set]; omega
    · rw [getD_set_self _ _ _ _ h2]
      have hL : ((ed.lines.getD ed.cursor_row []).eraseIdx ed.cursor_col).length =
          (ed.lines.getD ed.cursor_row []).length - 1 := by
        rw [List.length_eraseIdx, if_pos (by omega)]
      omega
  · rw [if_neg hc]
    by_cases hrow : ed.cursor_row < ed.lines.length - 1
    · rw [if_pos hrow]
      have hlen : (ed.lines.eraseIdx (ed.cursor_row + 1)).length = ed.lines.length - 1 := by
        rw [List.length_eraseIdx, if_pos (show ed.cursor_row + 1 < ed.lines.length by omega)]
      refine ok_mk _ (ne_nil_of_length_pos (by simp only [List.length_set]; omega)) ?_ ?_ hu hr
      · simp only [List.length_set]; omega
      · rw [getD_set_self]
        · have hpre : (ed.lines.eraseIdx (ed.cursor_row + 1)).getD ed.cursor_row [] =
              ed.lines.getD ed.cursor_row [] := by
            rw [getD_eraseIdx, if_pos (by omega)]
          rw [hpre]
          simp only [List.length_append]
          omega
        · omega
    · rw [if_neg hrow]
      exact ⟨⟨h1, h2, h3⟩, hu, hr⟩

theorem ok_delete_line {ed : TextEditor} (h : ed.Ok) : ed.delete_line.2.Ok := by
  rw [Ok_def] at h
  obtain ⟨⟨h1, h2, h3⟩, hu, hr⟩ := h
  unfold TextEditor.delete_line
  simp only [TextEditor.lineAt]
  by_cases hgt : 1 < ed.lines.length
  · rw [if_pos hgt]
    have hlen : (ed.lines.eraseIdx ed.cursor_row).length = ed.lines.length - 1 := by
      rw [List.length_eraseIdx, if_pos h2]
    have hrow1 : (if ed.cursor_row ≥ (ed.lines.eraseIdx ed.cursor_row).length then
        (ed.lines.eraseIdx ed.cursor_row).length - 1 else ed.cursor_row) <
        (ed.lines.eraseIdx ed.cursor_row).length := by
      split <;> omega
    exact ok_clamp_col
      (ne_nil_of_length_pos
        (show (0 : Nat) < (ed.lines.eraseIdx ed.cursor_row).length by omega))
      hrow1 hu hr
  · rw [if_neg hgt]
    refine ok_mk _ (ne_nil_of_length_pos (by simp only [List.length_set]; omega))
      (by simp only [List.length_set]; exact h2) (by omega) hu hr

theorem ok_open_line_below {ed : TextEditor} (h : ed.Ok) : ed.open_line_below.Ok := by
  rw [Ok_def] at h
  obtain ⟨⟨h1, h2, h3⟩, hu, hr⟩ := h
  unfold TextEditor.open_line_below
  have hlen : (ed.lines.insertIdx (ed.cursor_row + 1) []).length = ed.lines.length + 1 :=
    List.length_insertIdx _ _ (by omega)
  exact ok_mk _ (ne_nil_of_length_pos (by omega)) (by omega) (by omega) hu hr

theorem ok_open_line_above {ed : TextEditor} (h : ed.Ok) : ed.open_line_above.Ok := by
  rw [Ok_def] at h
  obtain ⟨⟨h1, h2, h3⟩, hu, hr⟩ := h
  unfold TextEditor.open_line_above
  have hlen : (ed.lines.insertIdx ed.cursor_row []).length = ed.lines.length + 1 :=
    List.length_insertIdx _ _ (by omega)
  exact ok_mk _ (ne_nil_of_length_pos (by omega)) (by omega) (by omega) hu hr

theorem ok_insert_line_below {ed : TextEditor} (content : Line) (h : ed.Ok) :
    (ed.insert_line_below content).Ok := by
  rw [Ok_def] at h
  obtain ⟨⟨h1, h2, h3⟩, hu, hr⟩ := h
  unfold TextEditor.insert_line_below
  have hlen : (ed.lines.insertIdx (ed.cursor_row + 1) content).length = ed.lines.length + 1 :=
    List.length_insertIdx _ _ (by omega)
  refine ok_mk _ (ne_nil_of_length_pos (by omega)) (by omega) ?_ hu hr
  rw [getD_insertIdx_of_lt _ _ _ _ _ (by omega) h2]
  exact h3

theorem ok_replace_char {ed : TextEditor} (c : Char) (h : ed.Ok) : (ed.replace_char c).Ok := by
  rw [Ok_def] at h
  obtain ⟨⟨h1, h2, h3⟩, hu, hr⟩ := h
  unfold TextEditor.replace_char
  simp only [TextEditor.lineAt]
  rw [if_pos h2]
  by_cases hc : ed.cursor_col < (ed.lines.getD ed.cursor_row []).length
  · rw [if_pos hc]
    refine ok_mk _ (ne_nil_of_length_pos (by simp only [List.length_set]; omega))
      (by simp only [List.length_set]; exact h2) ?_ hu hr
    rw [getD_set_self _ _ _ _ h2]
    simp only [List.length_set]
    exact h3
  · rw [if_neg hc]
    exact ⟨⟨h1, h2, h3⟩, hu, hr⟩

theorem mem_of_getLast_eq {α : Type} {l : List α} {a : α} (h : l.getLast? = some a) : a ∈ l := by
  obtain ⟨hne, rfl⟩ := List.mem_getLast?_eq_getLast (show a ∈ l.getLast? from h)
  exact List.getLast_mem hne

theorem ok_save_snapshot {ed : TextEditor} (h : ed.Ok) : ed.save_snapshot.Ok := by
  rw [Ok_def] at h
  obtain ⟨⟨h1, h2, h3⟩, hu, hr⟩ := h
  have hall : ∀ s ∈ ed.undo_stack ++ [ed.create_snapshot], SnapOk s := by
    intro s hs
    rcases List.mem_append.mp hs with hs | hs
    · exact hu s hs
    · rw [List.mem_singleton.mp hs]
      exact ⟨h1, h2, h3⟩
  unfold TextEditor.save_snapshot
  dsimp only
  by_cases hc : (ed.undo_stack ++ [ed.create_snapshot]).length > MAX_UNDO_HISTORY
  · rw [if_pos hc]
    refine ⟨⟨h1, h2, h3⟩, ?_, ?_⟩
    · intro s hs
      exact hall s ((List.eraseIdx_sublist _ 0).mem hs)
    · intro s hs
      exact absurd hs (List.not_mem_nil s)
  · rw [if_neg hc]
    refine ⟨⟨h1, h2, h3⟩, hall, ?_⟩
    intro s hs
    exact absurd hs (List.not_mem_nil s)

theorem ok_undo {ed : TextEditor} (h : ed.Ok) : ed.undo.2.Ok := by
  rw [Ok_def] at h
  obtain ⟨⟨h1, h2, h3⟩, hu, hr⟩ := h
  unfold TextEditor.undo
  cases hL : ed.undo_stack.getLast? with
  | none => exact ⟨⟨h1, h2, h3⟩, hu, hr⟩
  | some s =>
    have hs := hu s (mem_of_getLast_eq hL)
    refine ⟨hs, ?_, ?_⟩
    · intro t ht
      exact hu t ((List.dropLast_sublist _).mem ht)
    · intro t ht
      rcases List.mem_append.mp ht with ht | ht
      · exact hr t ht
      · rw [List.mem_singleton.mp ht]
        exact ⟨h1, h2, h3⟩

theorem ok_redo {ed : TextEditor} (h : ed.Ok) : ed.redo.2.Ok := by
  rw [Ok_def] at h
  obtain ⟨⟨h1, h2, h3⟩, hu, hr⟩ := h
  unfold TextEditor.redo
  cases hL : ed.redo_stack.getLast? with
  | none => exact ⟨⟨h1, h2, h3⟩, hu, hr⟩
  | some s =>
    have hs := hr s (mem_of_getLast_eq hL)
    refine ⟨hs, ?_, ?_⟩
    · intro t ht
      rcases List.mem_append.mp ht with ht | ht
      · exact hu t ht
      · rw [List.mem_singleton.mp ht]
        exact ⟨h1, h2, h3⟩
    · intro t ht
      exact hr t ((List.dropLast_sublist _).mem ht)

theorem ok_delete_inner_word {ed : TextEditor} (h : ed.Ok) : ed.delete_inner_word.2.Ok := by
  rw [Ok_def] at h
  obtain ⟨⟨h1, h2, h3⟩, hu, hr⟩ := h
  have hget : ed.lines.get? ed.cursor_row = some (ed.lines.getD ed.cursor_row []) := by
    rw [List.get?_eq_getElem?, List.getElem?_eq_getElem h2, List.getD_eq_getElem?_getD,
      List.getElem?_eq_getElem h2]
    rfl
  unfold TextEditor.delete_inner_word
  rw [hget]
  dsimp only
  by_cases hcond : ed.lines.getD ed.cursor_row [] = [] ∨
      ed.cursor_col ≥ (ed.lines.getD ed.cursor_row []).length
  · rw [if_pos hcond]
    exact ⟨⟨h1, h2, h3⟩, hu, hr⟩
  · rw [if_neg hcond]
    have hcol : ed.cursor_col < (ed.lines.getD ed.cursor_row []).length := by
      rcases Nat.lt_or_ge ed.cursor_col (ed.lines.getD ed.cursor_row []).length with hlt | hge
      · exact hlt
      · exact absurd (Or.inr hge) hcond
    have hstart : fwb_start (ed.lines.getD ed.cursor_row []) ed.cursor_col ≤ ed.cursor_col :=
      fwb_start_le _ _
    simp only [find_word_boundaries, TextEditor.delete_range]
    refine ok_mk _ (ne_nil_of_length_pos (by simp only [List.length_set]; omega))
      (by simp only [List.length_set]; exact h2) ?_ hu hr
    rw [getD_set_self _ _ _ _ h2]
    simp only [List.length_append, List.length_take, List.length_drop]
    omega

theorem ok_delete_around_word {ed : TextEditor} (h : ed.Ok) : ed.delete_around_word.2.Ok := by
  rw [Ok_def] at h
  obtain ⟨⟨h1, h2, h3⟩, hu, hr⟩ := h
  have hget : ed.lines.get? ed.cursor_row = some (ed.lines.getD ed.cursor_row []) := by
    rw [List.get?_eq_getElem?, List.getElem?_eq_getElem h2, List.getD_eq_getElem?_getD,
      List.getElem?_eq_getElem h2]
    rfl
  unfold TextEditor.delete_around_word
  rw [hget]
  dsimp only
  by_cases hcond : ed.lines.getD ed.cursor_row [] = [] ∨
      ed.cursor_col ≥ (ed.lines.getD ed.cursor_row []).length
  · rw [if_pos hcond]
    exact ⟨⟨h1, h2, h3⟩, hu, hr⟩
  · rw [if_neg hcond]
    have hcol : ed.cursor_col < (ed.lines.getD ed.cursor_row []).length := by
      rcases Nat.lt_or_ge ed.cursor_col (ed.lines.getD ed.cursor_row []).length with hlt | hge
      · exact hlt
      · exact absurd (Or.inr hge) hcond
    have hs0 : fwb_start (ed.lines.getD ed.cursor_row []) ed.cursor_col ≤ ed.cursor_col :=
      fwb_start_le _ _
    have hws : daw_ws_start (ed.lines.getD ed.cursor_row [])
        (fwb_start (ed.lines.getD ed.cursor_row []) ed.cursor_col) ≤
        fwb_start (ed.lines.getD ed.cursor_row []) ed.cursor_col :=
      daw_ws_start_le _ _
    simp only [find_word_boundaries, TextEditor.delete_range, TextEditor.lineAt]
    refine ok_mk _ (ne_nil_of_length_pos (by simp only [List.length_set]; omega))
      (by simp only [List.length_set]; exact h2) ?_ hu hr
    refine le_trans (Nat.min_le_left _ _) ?_
    rw [getD_set_self _ _ _ _ h2]
    simp only [List.length_append, List.length_take, List.length_drop]
    split <;> omega

theorem removeLoop_length : ∀ (k : Nat) (lines : List Line) (sr : Nat),
    sr + 1 + k ≤ lines.length → (removeLoop lines sr k).length = lines.length - k
  | 0, lines, sr, _ => by simp [removeLoop]
  | k + 1, lines, sr, h => by
    simp only [removeLoop]
    rw [if_pos (show sr + 1 < lines.length by omega)]
    have hlen : (lines.eraseIdx (sr + 1)).length = lines.length - 1 := by
      rw [List.length_eraseIdx, if_pos (by omega)]
    rw [removeLoop_length k _ sr (by omega)]
    omega

theorem removeLoop_getD (d : Line) : ∀ (k : Nat) (lines : List Line) (sr j : Nat), j ≤ sr →
    (removeLoop lines sr k).getD j d = lines.getD j d
  | 0, lines, sr, j, _ => by simp [removeLoop]
  | k + 1, lines, sr, j, hj => by
    simp only [removeLoop]
    by_cases hc : sr + 1 < lines.length
    · rw [if_pos hc, removeLoop_getD d k _ sr j hj, getD_eraseIdx, if_pos (by omega)]
    · rw [if_neg hc, removeLoop_getD d k _ sr j hj]

theorem ok_dvs_apply {ed : TextEditor} (h : ed.Ok) {sr sc er ec : Nat}
    (hsr : sr < ed.lines.length) (her : er < ed.lines.length) (hle : sr ≤ er)
    (hsc : sc ≤ (ed.lines.getD sr []).length) :
    ({ dvs_apply ed sr sc er ec with cursor_row := sr, cursor_col := sc } : TextEditor).Ok := by
  rw [Ok_def] at h
  obtain ⟨⟨h1, h2, h3⟩, hu, hr⟩ := h
  unfold dvs_apply
  by_cases hse : sr = er
  · rw [if_pos hse]
    have hget : ed.lines.get? sr = some (ed.lines.getD sr []) := by
      rw [List.get?_eq_getElem?, List.getElem?_eq_getElem hsr, List.getD_eq_getElem?_getD,
        List.getElem?_eq_getElem hsr]
      rfl
    rw [hget]
    dsimp only
    refine ok_mk _ (ne_nil_of_length_pos (by simp only [List.length_set]; omega))
      (by simp only [List.length_set]; exact hsr) ?_ hu hr
    rw [getD_set_self _ _ _ _ hsr]
    simp only [List.length_append, List.length_take, List.length_drop]
    omega
  · rw [if_neg hse]
    dsimp only
    have hrl := removeLoop_length (er - sr) ed.lines sr (by omega)
    have hrg := removeLoop_getD [] (er - sr) ed.lines sr sr (le_refl sr)
    rw [if_pos (show sr < (removeLoop ed.lines sr (er - sr)).length by omega)]
    refine ok_mk _ (ne_nil_of_length_pos (by simp only [List.length_set]; omega))
      (by simp only [List.length_set]; omega) ?_ hu hr
    rw [getD_set_self _ _ _ _ (by omega)]
    simp only [List.length_append, List.length_take, List.length_drop]
    omega

theorem ok_delete_visual {ed : TextEditor} {vr vc : Nat} (h : ed.Ok)
    (hvr : vr < ed.lines.length) (hvc : vc ≤ (ed.lines.getD vr []).length) :
    (delete_visual_selection ed vr vc).2.Ok := by
  have hfields := h
  rw [Ok_def] at hfields
  obtain ⟨⟨h1, h2, h3⟩, hu, hr⟩ := hfields
  unfold delete_visual_selection get_selection_bounds
  by_cases hb : vr < ed.cursor_row ∨ (vr = ed.cursor_row ∧ vc ≤ ed.cursor_col)
  · rw [if_pos hb]
    dsimp only
    exact ok_dvs_apply h hvr h2 (by omega) hvc
  · rw [if_neg hb]
    dsimp only
    have hge : ed.cursor_row ≤ vr := by
      rcases Nat.lt_or_ge ed.cursor_row vr with hlt | hge2
      · omega
      · rcases Nat.lt_or_ge vr ed.cursor_row with hlt2 | hge3
        · exact absurd (Or.inl hlt2) hb
        · omega
    exact ok_dvs_apply h h2 hvr hge h3

theorem ok_new (text : List Char) : (TextEditor.new text).Ok := by
  unfold TextEditor.new
  dsimp only
  by_cases hc : rustLines text = []
  · rw [if_pos hc]
    exact ok_mk _ (by simp) (by simp) (by simp)
      (fun s hs => absurd hs (List.not_mem_nil s)) (fun s hs => absurd hs (List.not_mem_nil s))
  · rw [if_neg hc]
    exact ok_mk _ hc (List.length_pos.mpr hc) (Nat.zero_le _)
      (fun s hs => absurd hs (List.not_mem_nil s)) (fun s hs => absurd hs (List.not_mem_nil s))

theorem ok_applyOp {ed : TextEditor} {op : EditOp} (h : ed.Ok) (ha : ArgsOk op ed) :
    (applyOp op ed).Ok := by
  cases op with
  | moveUp => exact ok_move_up h
  | moveDown => exact ok_move_down h
  | moveLeft => exact ok_move_left h
  | moveRight => exact ok_move_right h
  | lineStart => exact ok_move_to_line_start h
  | lineEnd => exact ok_move_to_line_end h
  | firstNonWs => exact ok_move_to_first_non_whitespace h
  | wordForward => exact ok_move_word_forward h
  | wordBackward => exact ok_move_word_backward h
  | gotoFirst => exact ok_goto_first_line h
  | gotoLast => exact ok_goto_last_line h
  | insertChar c => exact ok_insert_char c h
  | insertNewline => exact ok_insert_newline h
  | backspace => exact ok_backspace h
  | delete => exact ok_delete h
  | deleteLine => exact ok_delete_line h
  | openBelow => exact ok_open_line_below h
  | openAbove => exact ok_open_line_above h
  | insertLineBelow content => exact ok_insert_line_below content h
  | replaceChar c => exact ok_replace_char c h
  | deleteInnerWord => exact ok_delete_inner_word h
  | deleteAroundWord => exact ok_delete_around_word h
  | saveSnapshot => exact ok_save_snapshot h
  | undo => exact ok_undo h
  | redo => exact ok_redo h
  | deleteVisual vr vc => exact ok_delete_visual h ha.1 ha.2

theorem reachable_ok {ed : TextEditor} (h : Reachable ed) : ed.Ok := by
  induction h with
  | init text => exact ok_new text
  | step ed op hre ha ih => exact ok_applyOp ih ha

/-- C4: for every reachable editor state and every buffer/cursor operation
(construction, cursor motions, insertions, deletions, line operations,
text-object deletions, undo/redo, and visual-selection deletion with a
valid anchor), afterwards the cursor row indexes the non-empty lines
vector and the cursor column never exceeds the Unicode-scalar length of
its line. -/
theorem C4_cursor_invariant (ed : TextEditor) (op : EditOp) (hre : Reachable ed)
    (ha : ArgsOk op ed) :
    (applyOp op ed).cursor_row < (applyOp op ed).lines.length ∧
    (applyOp op ed).cursor_col ≤
      ((applyOp op ed).lines.getD (applyOp op ed).cursor_row []).length ∧
    (applyOp op ed).lines ≠ [] := by
  have h := ok_applyOp (reachable_ok hre) ha
  rw [Ok_def] at h
  exact ⟨h.1.2.1, h.1.2.2, h.1.1⟩

/-- C4 witness: the invariant applied to a freshly constructed one-line
buffer and a backspace operation. -/
theorem C4_cursor_invariant_witness :
    (applyOp EditOp.backspace (TextEditor.new ['h'])).cursor_row <
      (applyOp EditOp.backspace (TextEditor.new ['h'])).lines.length ∧
    (applyOp EditOp.backspace (TextEditor.new ['h'])).cursor_col ≤
      ((applyOp EditOp.backspace (TextEditor.new ['h'])).lines.getD
        (applyOp EditOp.backspace (TextEditor.new ['h'])).cursor_row []).length ∧
    (applyOp EditOp.backspace (TextEditor.new ['h'])).lines ≠ [] :=
  C4_cursor_invariant (TextEditor.new ['h']) EditOp.backspace (Reachable.init ['h']) trivial

/-- C5: the lines vector is never empty: construction from any text yields
at least one line, every operation preserves non-emptiness, and
`delete_line` on a one-line buffer clears the line in place (returning its
previous content and resetting the column to 0) instead of removing it. -/
theorem C5_lines_never_empty :
    (∀ text : List Char, (TextEditor.new text).lines ≠ []) ∧
    (∀ (ed : TextEditor) (op : EditOp), Reachable ed → ArgsOk op ed →
      (applyOp op ed).lines ≠ []) ∧
    (∀ ed : TextEditor, ed.lines.length = 1 →
      ed.delete_line.1 = some (ed.lines.getD 0 []) ∧
      ed.delete_line.2.lines = [[]] ∧
      ed.delete_line.2.cursor_col = 0) := by
  refine ⟨?_, ?_, ?_⟩
  · intro text
    exact (ok_new text).1.1
  · intro ed op hre ha
    exact (ok_applyOp (reachable_ok hre) ha).1.1
  · intro ed hone
    obtain ⟨x, hx⟩ := List.length_eq_one.mp hone
    unfold TextEditor.delete_line
    rw [if_neg (by omega)]
    rw [hx]
    exact ⟨rfl, rfl, rfl⟩

/-- C5 witness: construction from empty text, one editing step, and the
single-line `delete_line` special case, each at a concrete input. -/
theorem C5_lines_never_empty_witness :
    (TextEditor.new []).lines ≠ [] ∧
    (applyOp EditOp.deleteLine (TextEditor.new [])).lines ≠ [] ∧
    ((TextEditor.new ['a', 'b']).delete_line.1 =
      some ((TextEditor.new ['a', 'b']).lines.getD 0 []) ∧
     (TextEditor.new ['a', 'b']).delete_line.2.lines = [[]] ∧
     (TextEditor.new ['a', 'b']).delete_line.2.cursor_col = 0) :=
  ⟨C5_lines_never_empty.1 [],
   C5_lines_never_empty.2.1 (TextEditor.new []) EditOp.deleteLine (Reachable.init []) trivial,
   C5_lines_never_empty.2.2 (TextEditor.new ['a', 'b']) (by decide)⟩

/- ===== undo-cap machinery (C6) ===== -/

/-- A core mutation: the visible state (lines and cursor) is replaced and
the history stacks are untouched — the shape of every mutating editor
method between its `save_snapshot()` call and the next command. -/
def applyMutation (f : EditorSnapshot → EditorSnapshot) (ed : TextEditor) : TextEditor :=
  ed.restore_snapshot (f ed.create_snapshot)

/-- One snapshot+mutation pair: `save_snapshot()` before mutating. -/
def snapMutate (f : EditorSnapshot → EditorSnapshot) (ed : TextEditor) : TextEditor :=
  applyMutation f ed.save_snapshot

/-- A sequence of snapshot+mutation pairs. -/
def runPairs : List (EditorSnapshot → EditorSnapshot) → TextEditor → TextEditor
  | [], ed => ed
  | f :: fs, ed => runPairs fs (snapMutate f ed)

/-- The visible states before each mutation of a run (the snapshots the
run pushes, oldest first). -/
def coreSnaps : List (EditorSnapshot → EditorSnapshot) → EditorSnapshot → List EditorSnapshot
  | [], _ => []
  | f :: fs, c => c :: coreSnaps fs (f c)

/-- The visible state after a run of mutations. -/
def foldCore (fs : List (EditorSnapshot → EditorSnapshot)) (c : EditorSnapshot) :
    EditorSnapshot :=
  fs.foldl (fun c f => f c) c

/-- `n` successive `undo()` calls; the flag is the conjunction of the
returned flags. -/
def undoTimes : Nat → TextEditor → Bool × TextEditor
  | 0, ed => (true, ed)
  | n + 1, ed =>
    let p := ed.undo
    let q := undoTimes n p.2
    (p.1 && q.1, q.2)

/-- Fallback snapshot for `getD` on snapshot stacks. -/
def dfltSnap : EditorSnapshot := { lines := [], cursor_row := 0, cursor_col := 0 }

theorem coreSnaps_length : ∀ (fs : List (EditorSnapshot → EditorSnapshot)) (c : EditorSnapshot),
    (coreSnaps fs c).length = fs.length
  | [], _ => rfl
  | f :: fs, c => by simp [coreSnaps, coreSnaps_length fs (f c)]

theorem coreSnaps_getD : ∀ (fs : List (EditorSnapshot → EditorSnapshot)) (c : EditorSnapshot)
    (k : Nat), k < fs.length → (coreSnaps fs c).getD k dfltSnap = foldCore (fs.take k) c
  | [], _, k, hk => by simp at hk
  | f :: fs, c, 0, _ => by simp [coreSnaps, foldCore]
  | f :: fs, c, k + 1, hk => by
    simp only [coreSnaps, List.getD_cons_succ, List.take, foldCore, List.foldl]
    exact coreSnaps_getD fs (f c) k (by simpa using hk)

theorem getD_drop {α : Type} (l : List α) (i j : Nat) (d : α) :
    (l.drop i).getD j d = l.getD (i + j) d := by
  rw [List.getD_eq_getElem?_getD, List.getD_eq_getElem?_getD, List.getElem?_drop]

theorem getD_take {α : Type} (l : List α) (i j : Nat) (d : α) (h : j < i) :
    (l.take i).getD j d = l.getD j d := by
  rw [List.getD_eq_getElem?_getD, List.getD_eq_getElem?_getD, List.getElem?_take, if_pos h]

/-- Eviction characterization of `save_snapshot` on a stack of at most 100
snapshots: the new stack is the last 100 entries of the pushed stack. -/
theorem save_snapshot_stack {ed : TextEditor} (h : ed.undo_stack.length ≤ MAX_UNDO_HISTORY) :
    ed.save_snapshot = { ed with
      undo_stack := (ed.undo_stack ++ [ed.create_snapshot]).drop
        ((ed.undo_stack ++ [ed.create_snapshot]).length - MAX_UNDO_HISTORY),
      redo_stack := [] } := by
  unfold TextEditor.save_snapshot
  dsimp only
  by_cases hc : (ed.undo_stack ++ [ed.create_snapshot]).length > MAX_UNDO_HISTORY
  · rw [if_pos hc]
    have hlen : (ed.undo_stack ++ [ed.create_snapshot]).length = MAX_UNDO_HISTORY + 1 := by
      simp only [List.length_append, List.length_cons, List.length_nil] at hc ⊢
      omega
    rw [List.eraseIdx_zero, hlen]
    simp only [Nat.add_sub_cancel_left]
    rw [← List.drop_one]
  · rw [if_neg hc]
    have : (ed.undo_stack ++ [ed.create_snapshot]).length - MAX_UNDO_HISTORY = 0 := by omega
    rw [this, List.drop_zero]

theorem dropN_dropN_append (A B : List EditorSnapshot) :
    ((A.drop (A.length - MAX_UNDO_HISTORY)) ++ B).drop
      ((A.drop (A.length - MAX_UNDO_HISTORY) ++ B).length - MAX_UNDO_HISTORY) =
    (A ++ B).drop ((A ++ B).length - MAX_UNDO_HISTORY) := by
  by_cases hA : A.length ≤ MAX_UNDO_HISTORY
  · have h0 : A.length - MAX_UNDO_HISTORY = 0 := by omega
    rw [h0, List.drop_zero]
  · have hm : A.length - MAX_UNDO_HISTORY ≤ A.length := by omega
    rw [← List.drop_append_of_le_length hm, List.drop_drop]
    have hx : (A.length - MAX_UNDO_HISTORY +
        (((A ++ B).drop (A.length - MAX_UNDO_HISTORY)).length - MAX_UNDO_HISTORY)) =
        (A ++ B).length - MAX_UNDO_HISTORY := by
      simp only [List.length_drop, List.length_append]
      omega
    rw [hx]

/-- After a run of snapshot+mutation pairs from a stack of at most 100
snapshots: the visible state is the fold of the mutations and the undo
stack holds the last 100 pushed snapshots. -/
theorem runPairs_spec : ∀ (fs : List (EditorSnapshot → EditorSnapshot)) (ed : TextEditor),
    ed.undo_stack.length ≤ MAX_UNDO_HISTORY →
    (runPairs fs ed).create_snapshot = foldCore fs ed.create_snapshot ∧
    (runPairs fs ed).undo_stack =
      (ed.undo_stack ++ coreSnaps fs ed.create_snapshot).drop
        ((ed.undo_stack ++ coreSnaps fs ed.create_snapshot).length - MAX_UNDO_HISTORY) ∧
    (runPairs fs ed).undo_stack.length ≤ MAX_UNDO_HISTORY
  | [], ed, h => by
    refine ⟨rfl, ?_, h⟩
    show ed.undo_stack = _
    simp only [coreSnaps, List.append_nil]
    have h0 : ed.undo_stack.length - MAX_UNDO_HISTORY = 0 := by omega
    rw [h0, List.drop_zero]
  | f :: fs, ed, h => by
    have hsave := save_snapshot_stack h
    have hlen1 : (snapMutate f ed).undo_stack.length ≤ MAX_UNDO_HISTORY := by
      unfold snapMutate applyMutation TextEditor.restore_snapshot
      rw [hsave]
      simp only [List.length_drop, List.length_append, List.length_cons, List.length_nil]
      omega
    obtain ⟨ih1, ih2, ih3⟩ := runPairs_spec fs (snapMutate f ed) hlen1
    have hcore : (snapMutate f ed).create_snapshot = f ed.create_snapshot := rfl
    have hstack : (snapMutate f ed).undo_stack =
        (ed.undo_stack ++ [ed.create_snapshot]).drop
          ((ed.undo_stack ++ [ed.create_snapshot]).length - MAX_UNDO_HISTORY) := by
      unfold snapMutate applyMutation TextEditor.restore_snapshot
      rw [hsave]
    refine ⟨?_, ?_, ih3⟩
    · show (runPairs fs (snapMutate f ed)).create_snapshot = _
      rw [ih1, hcore]
      rfl
    · show (runPairs fs (snapMutate f ed)).undo_stack = _
      rw [ih2, hstack, hcore]
      have hassoc : ed.undo_stack ++ coreSnaps (f :: fs) ed.create_snapshot =
          (ed.undo_stack ++ [ed.create_snapshot]) ++ coreSnaps fs (f ed.create_snapshot) := by
        simp [coreSnaps]
      rw [hassoc]
      exact dropN_dropN_append _ _

theorem getLast?_eq_getD {α : Type} (l : List α) (d : α) (h : l ≠ []) :
    l.getLast? = some (l.getD (l.length - 1) d) := by
  rw [List.getLast?_eq_getElem?, List.getD_eq_getElem?_getD,
    List.getElem?_eq_getElem (Nat.sub_lt (List.length_pos.mpr h) Nat.one_pos)]
  rfl

theorem undo_empty {ed : TextEditor} (h : ed.undo_stack = []) : ed.undo = (false, ed) := by
  unfold TextEditor.undo
  rw [h]
  rfl

theorem undo_some {ed : TextEditor} {s : EditorSnapshot}
    (h : ed.undo_stack.getLast? = some s) :
    ed.undo = (true,
      { lines := s.lines, cursor_row := s.cursor_row, cursor_col := s.cursor_col,
        scroll_offset := ed.scroll_offset, undo_stack := ed.undo_stack.dropLast,
        redo_stack := ed.redo_stack ++ [ed.create_snapshot] }) := by
  unfold TextEditor.undo
  rw [h]
  rfl

theorem undoTimes_succ (n : Nat) (ed : TextEditor) :
    undoTimes (n + 1) ed =
      (ed.undo.1 && (undoTimes n ed.undo.2).1, (undoTimes n ed.undo.2).2) :=
  rfl

theorem undoTimes_spec : ∀ (n : Nat) (ed : TextEditor), n + 1 ≤ ed.undo_stack.length →
    (undoTimes (n + 1) ed).1 = true ∧
    (undoTimes (n + 1) ed).2.create_snapshot =
      ed.undo_stack.getD (ed.undo_stack.length - (n + 1)) dfltSnap ∧
    (undoTimes (n + 1) ed).2.undo_stack =
      ed.undo_stack.take (ed.undo_stack.length - (n + 1))
  | 0, ed, hlen => by
    have hne : ed.undo_stack ≠ [] := by
      intro h0
      rw [h0] at hlen
      simp at hlen
    have hu := undo_some (getLast?_eq_getD ed.undo_stack dfltSnap hne)
    rw [undoTimes_succ, hu]
    dsimp only
    exact ⟨rfl, rfl, List.dropLast_eq_take _⟩
  | n + 1, ed, hlen => by
    have hne : ed.undo_stack ≠ [] := by
      intro h0
      rw [h0] at hlen
      simp at hlen
    have hu := undo_some (getLast?_eq_getD ed.undo_stack dfltSnap hne)
    have hpos : 0 < ed.undo_stack.length := List.length_pos.mpr hne
    rw [undoTimes_succ, hu]
    have hlen1 : n + 1 ≤ ed.undo_stack.dropLast.length := by
      rw [List.length_dropLast]
      omega
    obtain ⟨ih1, ih2, ih3⟩ := undoTimes_spec n
      { lines := (ed.undo_stack.getD (ed.undo_stack.length - 1) dfltSnap).lines,
        cursor_row := (ed.undo_stack.getD (ed.undo_stack.length - 1) dfltSnap).cursor_row,
        cursor_col := (ed.undo_stack.getD (ed.undo_stack.length - 1) dfltSnap).cursor_col,
        scroll_offset := ed.scroll_offset, undo_stack := ed.undo_stack.dropLast,
        redo_stack := ed.redo_stack ++ [ed.create_snapshot] } hlen1
    dsimp only
    dsimp only at ih1 ih2 ih3
    refine ⟨by rw [ih1]; rfl, ?_, ?_⟩
    · rw [ih2]
      show (ed.undo_stack.dropLast).getD ((ed.undo_stack.dropLast).length - (n + 1))
        dfltSnap = _
      rw [List.length_dropLast, List.dropLast_eq_take, getD_take _ _ _ _ (by omega)]
      have hidx : ed.undo_stack.length - 1 - (n + 1) =
          ed.undo_stack.length - (n + 1 + 1) := by omega
      rw [hidx]
    · rw [ih3]
      show (ed.undo_stack.dropLast).take ((ed.undo_stack.dropLast).length - (n + 1)) = _
      rw [List.length_dropLast, List.dropLast_eq_take, List.take_take]
      have hidx : (ed.undo_stack.length - 1 - (n + 1)) ⊓ (ed.undo_stack.length - 1) =
          ed.undo_stack.length - (n + 1 + 1) := by omega
      rw [hidx]

/-- C6: the undo stack is capped at 100 snapshots with FIFO eviction and
`save_snapshot` clears the redo stack: after more than 100 sequential
snapshot+mutation pairs starting from a fresh editor, exactly 100
snapshots remain; 100 successive undos all succeed and reach the visible
state from 100 mutations back; the 101st undo returns false and leaves
the state unchanged. -/
theorem C6_undo_cap (fs : List (EditorSnapshot → EditorSnapshot)) (text : List Char)
    (hN : 100 < fs.length) :
    (∀ ed : TextEditor, ed.save_snapshot.redo_stack = []) ∧
    (runPairs fs (TextEditor.new text)).undo_stack.length = 100 ∧
    (undoTimes 100 (runPairs fs (TextEditor.new text))).1 = true ∧
    (undoTimes 100 (runPairs fs (TextEditor.new text))).2.lines =
      (runPairs (fs.take (fs.length - 100)) (TextEditor.new text)).lines ∧
    (undoTimes 100 (runPairs fs (TextEditor.new text))).2.cursor_row =
      (runPairs (fs.take (fs.length - 100)) (TextEditor.new text)).cursor_row ∧
    (undoTimes 100 (runPairs fs (TextEditor.new text))).2.cursor_col =
      (runPairs (fs.take (fs.length - 100)) (TextEditor.new text)).cursor_col ∧
    (undoTimes 100 (runPairs fs (TextEditor.new text))).2.undo.1 = false ∧
    (undoTimes 100 (runPairs fs (TextEditor.new text))).2.undo.2 =
      (undoTimes 100 (runPairs fs (TextEditor.new text))).2 := by
  have h0 : (TextEditor.new text).undo_stack = [] := rfl
  have hle0 : (TextEditor.new text).undo_stack.length ≤ MAX_UNDO_HISTORY := by
    rw [h0]
    simp [MAX_UNDO_HISTORY]
  obtain ⟨hcore, hstack, hlen100⟩ := runPairs_spec fs (TextEditor.new text) hle0
  rw [h0] at hstack
  simp only [List.nil_append, MAX_UNDO_HISTORY] at hstack
  have hSlen : (coreSnaps fs (TextEditor.new text).create_snapshot).length = fs.length :=
    coreSnaps_length _ _
  have hlenN : (runPairs fs (TextEditor.new text)).undo_stack.length = 100 := by
    rw [hstack]
    simp only [List.length_drop, hSlen]
    omega
  have hspec := undoTimes_spec 99 (runPairs fs (TextEditor.new text)) (by omega)
  have h99 : (99 : Nat) + 1 = 100 := rfl
  rw [h99] at hspec
  obtain ⟨hflag, hsnap, htail⟩ := hspec
  rw [hlenN] at hsnap htail
  have hsub : (100 : Nat) - 100 = 0 := rfl
  rw [hsub, List.take_zero] at htail
  -- the snapshot reached after 100 undos is the one from 100 mutations back
  have hgoal : (undoTimes 100 (runPairs fs (TextEditor.new text))).2.create_snapshot =
      (runPairs (fs.take (fs.length - 100)) (TextEditor.new text)).create_snapshot := by
    rw [hsnap, hstack, getD_drop]
    have hk : (coreSnaps fs (TextEditor.new text).create_snapshot).length - 100 + 0 =
        fs.length - 100 := by
      omega
    rw [hk, coreSnaps_getD fs _ (fs.length - 100) (by omega)]
    obtain ⟨hcore2, _, _⟩ := runPairs_spec (fs.take (fs.length - 100)) (TextEditor.new text) hle0
    rw [hcore2]
  have hund := undo_empty htail
  refine ⟨fun ed => rfl, hlenN, hflag, ?_, ?_, ?_, ?_, ?_⟩
  · have hfield := congrArg EditorSnapshot.lines hgoal
    simp only [TextEditor.create_snapshot] at hfield
    exact hfield
  · have hfield := congrArg EditorSnapshot.cursor_row hgoal
    simp only [TextEditor.create_snapshot] at hfield
    exact hfield
  · have hfield := congrArg EditorSnapshot.cursor_col hgoal
    simp only [TextEditor.create_snapshot] at hfield
    exact hfield
  · rw [hund]
  · rw [hund]

/-- Concrete run for the C6 witness: 101 identity mutations. -/
def fsWitness : List (EditorSnapshot → EditorSnapshot) :=
  List.replicate 101 (fun s => s)

/-- C6 witness: the undo-cap law applied to a run of 101 concrete
snapshot+mutation pairs on a one-character buffer. -/
theorem C6_undo_cap_witness :
    100 < fsWitness.length ∧
    ((∀ ed : TextEditor, ed.save_snapshot.redo_stack = []) ∧
     (runPairs fsWitness (TextEditor.new ['x'])).undo_stack.length = 100 ∧
     (undoTimes 100 (runPairs fsWitness (TextEditor.new ['x']))).1 = true ∧
     (undoTimes 100 (runPairs fsWitness (TextEditor.new ['x']))).2.lines =
       (runPairs (fsWitness.take (fsWitness.length - 100)) (TextEditor.new ['x'])).lines ∧
     (undoTimes 100 (runPairs fsWitness (TextEditor.new ['x']))).2.cursor_row =
       (runPairs (fsWitness.take (fsWitness.length - 100)) (TextEditor.new ['x'])).cursor_row ∧
     (undoTimes 100 (runPairs fsWitness (TextEditor.new ['x']))).2.cursor_col =
       (runPairs (fsWitness.take (fsWitness.length - 100)) (TextEditor.new ['x'])).cursor_col ∧
     (undoTimes 100 (runPairs fsWitness (TextEditor.new ['x']))).2.undo.1 = false ∧
     (undoTimes 100 (runPairs fsWitness (TextEditor.new ['x']))).2.undo.2 =
       (undoTimes 100 (runPairs fsWitness (TextEditor.new ['x']))).2) :=
  ⟨by simp [fsWitness], C6_undo_cap fsWitness ['x'] (by simp [fsWitness])⟩

/- ===== line-ending normalization (C3) ===== -/

/-- Normalize line endings to `\n`: replace every CRLF pair by LF. -/
def normEndings : List Char → List Char
  | [] => []
  | [c] => [c]
  | c :: d :: rest =>
    if c = '\r' ∧ d = '\n' then '\n' :: normEndings rest
    else c :: normEndings (d :: rest)

/-- Remove a single trailing `\n` (the optional final line terminator that
Rust `str::lines` swallows). -/
def stripTrailNl (s : List Char) : List Char :=
  if s.getLast? = some '\n' then s.dropLast else s

/-- C3 counterexample: for the input `a\n`, the buffer round trip drops
the trailing newline: `TextEditor::new("a\n").content()` is `a`, while
`a\n` with line endings normalized to `\n` is still `a\n`, so the two are
not equal as the claim states. -/
theorem C3_roundtrip_counterexample :
    (TextEditor.new ['a', '\n']).content = ['a'] ∧
    normEndings ['a', '\n'] = ['a', '\n'] ∧
    ¬ (TextEditor.new ['a', '\n']).content = normEndings ['a', '\n'] := by
  decide

theorem splitNl_ne_nil : ∀ (s : List Char), splitNl s ≠ []
  | [], h => by simp [splitNl] at h
  | c :: rest, h => by
    cases hs : splitNl rest with
    | nil => exact splitNl_ne_nil rest hs
    | cons l ls =>
      simp only [splitNl, hs] at h
      by_cases hc : c = '\n'
      · rw [if_pos hc] at h
        cases h
      · rw [if_neg hc] at h
        cases h

theorem splitNl_nl (s : List Char) : splitNl ('\n' :: s) = [] :: splitNl s := by
  cases hs : splitNl s with
  | nil => exact absurd hs (splitNl_ne_nil s)
  | cons l ls => simp [splitNl, hs]

theorem splitNl_cons_ne (c : Char) (s : List Char) (hc : c ≠ '\n') :
    splitNl (c :: s) = (c :: (splitNl s).headI) :: (splitNl s).tail := by
  cases hs : splitNl s with
  | nil => exact absurd hs (splitNl_ne_nil s)
  | cons l ls => simp [splitNl, hs, hc]

theorem splitNl_singleton : ∀ (w : List Char) (x : List Char), splitNl w = [x] → x = w
  | [], x, h => by
    simp only [splitNl] at h
    injection h with h1 _
    exact h1.symm
  | a :: w', x, h => by
    cases hs : splitNl w' with
    | nil => exact absurd hs (splitNl_ne_nil w')
    | cons l ls =>
      simp only [splitNl, hs] at h
      by_cases ha : a = '\n'
      · rw [if_pos ha] at h
        injection h with _ h2
        cases h2
      · rw [if_neg ha] at h
        injection h with h1 h2
        subst h2
        have hl : l = w' := splitNl_singleton w' l hs
        rw [← h1, hl]

theorem rustLines_ne_nil : ∀ (s : List Char), s ≠ [] → rustLines s ≠ []
  | [], h => absurd rfl h
  | a :: s', _ => by
    cases hs : splitNl s' with
    | nil => exact absurd hs (splitNl_ne_nil s')
    | cons l ls =>
      unfold rustLines
      by_cases ha : a = '\n'
      · subst ha
        rw [splitNl_nl, hs]
        simp [rustLinesGo]
      · rw [splitNl_cons_ne a s' ha, hs]
        cases ls with
        | nil => simp [rustLinesGo]
        | cons t ts => simp [rustLinesGo]

theorem rustLines_nl (s : List Char) : rustLines ('\n' :: s) = [] :: rustLines s := by
  cases hs : splitNl s with
  | nil => exact absurd hs (splitNl_ne_nil s)
  | cons l ls =>
    unfold rustLines
    rw [splitNl_nl, hs]
    simp [rustLinesGo, stripCR]

theorem rustLines_crlf (s : List Char) :
    rustLines ('\r' :: '\n' :: s) = [] :: rustLines s := by
  cases hs : splitNl s with
  | nil => exact absurd hs (splitNl_ne_nil s)
  | cons l ls =>
    unfold rustLines
    rw [splitNl_cons_ne '\r' _ (by decide), splitNl_nl, hs]
    simp [rustLinesGo, stripCR]

theorem stripCR_cons (c : Char) (l : List Char) (h : l ≠ [] ∨ c ≠ '\r') :
    stripCR (c :: l) = c :: stripCR l := by
  cases l with
  | nil =>
    rcases h with h | h
    · exact absurd rfl h
    · simp [stripCR, h]
  | cons t ts =>
    unfold stripCR
    rw [List.getLast?_cons_cons]
    by_cases hlast : (t :: ts).getLast? = some '\r'
    · rw [if_pos hlast, if_pos hlast]
      simp [List.dropLast]
    · rw [if_neg hlast, if_neg hlast]

theorem joinNl_cons_cons (c : Char) (x : List Char) (xs : List (List Char)) :
    joinNl ((c :: x) :: xs) = c :: joinNl (x :: xs) := by
  cases xs with
  | nil => rfl
  | cons y ys => rfl

theorem stripTrailNl_cons (c : Char) (l : List Char) (h : l ≠ []) :
    stripTrailNl (c :: l) = c :: stripTrailNl l := by
  cases l with
  | nil => exact absurd rfl h
  | cons t ts =>
    unfold stripTrailNl
    rw [List.getLast?_cons_cons]
    by_cases hlast : (t :: ts).getLast? = some '\n'
    · rw [if_pos hlast, if_pos hlast]
      simp [List.dropLast]
    · rw [if_neg hlast, if_neg hlast]

theorem normEndings_ne_nil : ∀ (s : List Char), s ≠ [] → normEndings s ≠ []
  | [], h => absurd rfl h
  | [c], _ => by simp [normEndings]
  | c :: d :: rest, _ => by
    unfold normEndings
    split <;> simp

theorem joinNl_nil_cons (R : List (List Char)) (h : R ≠ []) :
    joinNl ([] :: R) = '\n' :: joinNl R := by
  cases R with
  | nil => exact absurd rfl h
  | cons r rs => rfl

theorem rustLines_cons_ne (c d : Char) (rest : List Char) (hc : c ≠ '\n')
    (hcr : c = '\r' → d ≠ '\n') :
    rustLines (c :: d :: rest) =
      (c :: (rustLines (d :: rest)).headI) :: (rustLines (d :: rest)).tail := by
  cases hsp : splitNl (d :: rest) with
  | nil => exact absurd hsp (splitNl_ne_nil _)
  | cons hd tl =>
    have hsplit : splitNl (c :: d :: rest) = (c :: hd) :: tl := by
      rw [splitNl_cons_ne c _ hc, hsp]
      simp
    have hw : rustLines (d :: rest) = rustLinesGo (hd :: tl) := by
      unfold rustLines
      rw [hsp]
    cases tl with
    | nil =>
      have hne : hd ≠ [] := by
        intro h0
        subst h0
        have h1 := splitNl_singleton (d :: rest) [] hsp
        exact absurd h1.symm (List.cons_ne_nil d rest)
      unfold rustLines
      rw [hsplit, hsp]
      simp [rustLinesGo, hne]
    | cons t ts =>
      have hhead : hd ≠ [] ∨ c ≠ '\r' := by
        by_cases hcr2 : c = '\r'
        · left
          have hd2 : d ≠ '\n' := hcr hcr2
        -- with d not a newline, the first piece of splitNl (d :: rest) starts with d
          have heq := (splitNl_cons_ne d rest hd2).symm.trans hsp
          injection heq with h1 _
          rw [← h1]
          exact List.cons_ne_nil _ _
        · right
          exact hcr2
      unfold rustLines
      rw [hsplit, hsp]
      simp only [rustLinesGo]
      rw [stripCR_cons c hd hhead]
      simp [rustLinesGo]

theorem step_nl (s : List Char)
    (hs : joinNl (if rustLines s = [] then [[]] else rustLines s) =
      stripTrailNl (normEndings s)) :
    joinNl ([] :: rustLines s) = stripTrailNl ('\n' :: normEndings s) := by
  by_cases hnil : s = []
  · subst hnil
    decide
  · have hR : rustLines s ≠ [] := rustLines_ne_nil s hnil
    have hNE : normEndings s ≠ [] := normEndings_ne_nil s hnil
    rw [if_neg hR] at hs
    rw [joinNl_nil_cons _ hR, hs, stripTrailNl_cons _ _ hNE]

theorem content_norm_aux : ∀ (n : Nat) (text : List Char), text.length ≤ n →
    joinNl (if rustLines text = [] then [[]] else rustLines text) =
      stripTrailNl (normEndings text) := by
  intro n
  induction n with
  | zero =>
    intro text hlen
    have h0 : text = [] := List.length_eq_zero.mp (Nat.le_zero.mp hlen)
    subst h0
    decide
  | succ n ih =>
    intro text hlen
    rcases text with _ | ⟨c, rest0⟩
    · decide
    rcases rest0 with _ | ⟨d, rest⟩
    · -- single character
      by_cases hc : c = '\n'
      · subst hc
        decide
      · have h1 : splitNl [c] = [[c]] := by
          rw [splitNl_cons_ne c [] hc]
          simp [splitNl]
        have h2 : rustLines [c] = [[c]] := by
          unfold rustLines
          rw [h1]
          simp [rustLinesGo]
        rw [h2, if_neg (by simp)]
        have h3 : normEndings [c] = [c] := rfl
        rw [h3]
        unfold stripTrailNl
        rw [if_neg (by simp [hc])]
        rfl
    · by_cases hcd : c = '\r' ∧ d = '\n'
      · obtain ⟨rfl, rfl⟩ := hcd
        rw [rustLines_crlf, if_neg (by simp)]
        have hne : normEndings ('\r' :: '\n' :: rest) = '\n' :: normEndings rest := by
          simp [normEndings]
        rw [hne]
        refine step_nl rest (ih rest ?_)
        simp only [List.length_cons] at hlen
        omega
      · have hnorm : normEndings (c :: d :: rest) = c :: normEndings (d :: rest) := by
          simp only [normEndings]
          rw [if_neg hcd]
        by_cases hc : c = '\n'
        · subst hc
          rw [rustLines_nl, if_neg (by simp), hnorm]
          refine step_nl (d :: rest) (ih (d :: rest) ?_)
          simp only [List.length_cons] at hlen ⊢
          omega
        · have hcr : c = '\r' → d ≠ '\n' := fun h1 h2 => hcd ⟨h1, h2⟩
          have hE := rustLines_cons_ne c d rest hc hcr
          have hR : rustLines (d :: rest) ≠ [] := rustLines_ne_nil _ (by simp)
          have hIH := ih (d :: rest) (by simp only [List.length_cons] at hlen ⊢; omega)
          rw [if_neg hR] at hIH
          cases hRd : rustLines (d :: rest) with
          | nil => exact absurd hRd hR
          | cons H T =>
            rw [hE, hRd]
            simp only [List.headI_cons, List.tail_cons]
            rw [if_neg (by simp), joinNl_cons_cons]
            rw [hRd] at hIH
            rw [hIH, hnorm]
            have hNE : normEndings (d :: rest) ≠ [] := normEndings_ne_nil _ (by simp)
            rw [stripTrailNl_cons _ _ hNE]

/-- C3 (amended): constructing a buffer from any text and reading it back
reconstructs the text with its line endings normalized to `\n` *and a
single trailing line terminator (if any) removed* — Rust `str::lines`
does not produce a final empty line for a trailing newline, so the
round trip drops it. -/
theorem C3_content_roundtrip (text : List Char) :
    (TextEditor.new text).content = stripTrailNl (normEndings text) :=
  content_norm_aux text.length text (le_refl _)

/- ===================== C2: session-state round trip ===================== -/

/-- The names of the done exercises, in list order: the pieces the
done-names block of `AppState.write_buf` contributes to the state file. -/
def done_names : List Exercise → List (List Char)
  | [] => []
  | ex :: rest => (if ex.done then [ex.name] else []) ++ done_names rest

/-- A fresh exercise list as `AppState::new` builds it before parsing the
state file: the same exercises with every `done` flag cleared. -/
def unmark_exercises (exs : List Exercise) : List Exercise :=
  exs.map (fun ex => { ex with done := false })

theorem splitNl_nlfree : ∀ (l : List Char), '\n' ∉ l → splitNl l = [l]
  | [], _ => rfl
  | c :: rest, h => by
    have hc : c ≠ '\n' := fun hh => h (hh ▸ List.mem_cons_self c rest)
    have hr : '\n' ∉ rest := fun hh => h (List.mem_cons_of_mem c hh)
    rw [splitNl_cons_ne c rest hc, splitNl_nlfree rest hr]
    rfl

theorem splitNl_nlfree_append : ∀ (l s : List Char), '\n' ∉ l →
    splitNl (l ++ '\n' :: s) = l :: splitNl s
  | [], s, _ => splitNl_nl s
  | c :: rest, s, h => by
    have hc : c ≠ '\n' := fun hh => h (hh ▸ List.mem_cons_self c rest)
    have hr : '\n' ∉ rest := fun hh => h (List.mem_cons_of_mem c hh)
    rw [List.cons_append, splitNl_cons_ne c _ hc, splitNl_nlfree_append rest s hr]
    rfl

theorem splitNl_done_block : ∀ (exs : List Exercise) (w : List Char), '\n' ∉ w →
    (∀ ex ∈ exs, '\n' ∉ ex.name) →
    splitNl (w ++ done_names_block exs) = w :: done_names exs
  | [], w, hw, _ => by
    rw [done_names_block, done_names, List.append_nil]
    exact splitNl_nlfree w hw
  | ex :: rest, w, hw, hnl => by
    have hexnl : '\n' ∉ ex.name := hnl ex (List.mem_cons_self ex rest)
    have hrest : ∀ e ∈ rest, '\n' ∉ e.name := fun e he => hnl e (List.mem_cons_of_mem ex he)
    by_cases hd : ex.done
    · have hblock : done_names_block (ex :: rest) =
          '\n' :: (ex.name ++ done_names_block rest) := by
        rw [done_names_block, if_pos hd]
        rfl
      have hnames : done_names (ex :: rest) = ex.name :: done_names rest := by
        rw [done_names, if_pos hd]
        rfl
      rw [hblock, hnames, splitNl_nlfree_append w _ hw,
        splitNl_done_block rest ex.name hexnl hrest]
    · have hblock : done_names_block (ex :: rest) = done_names_block rest := by
        rw [done_names_block, if_neg hd]
        rfl
      have hnames : done_names (ex :: rest) = done_names rest := by
        rw [done_names, if_neg hd]
        rfl
      rw [hblock, hnames, splitNl_done_block rest w hw hrest]

theorem takeWhile_ne_nil : ∀ (l : List (List Char)), (∀ x ∈ l, x ≠ []) →
    l.takeWhile (fun n => n ≠ []) = l
  | [], _ => rfl
  | a :: l, h => by
    rw [List.takeWhile_cons,
      if_pos (by simpa using h a (List.mem_cons_self a l)),
      takeWhile_ne_nil l (fun x hx => h x (List.mem_cons_of_mem a hx))]

theorem mem_done_names : ∀ (exs : List Exercise) (n : List Char),
    n ∈ done_names exs ↔ ∃ ex, ex ∈ exs ∧ ex.done = true ∧ ex.name = n
  | [], n => by simp [done_names]
  | ex :: rest, n => by
    by_cases hd : ex.done
    · rw [done_names, if_pos hd]
      simp only [List.cons_append, List.nil_append, List.mem_cons,
        mem_done_names rest n]
      constructor
      · rintro (hn | ⟨e, he, hed, hen⟩)
        · exact ⟨ex, Or.inl rfl, hd, hn.symm⟩
        · exact ⟨e, Or.inr he, hed, hen⟩
      · rintro ⟨e, (he | he), hed, hen⟩
        · exact Or.inl (by rw [← hen, he])
        · exact Or.inr ⟨e, he, hed, hen⟩
    · rw [done_names, if_neg hd]
      simp only [List.nil_append, List.mem_cons, mem_done_names rest n]
      constructor
      · rintro ⟨e, he, hed, hen⟩
        exact ⟨e, Or.inr he, hed, hen⟩
      · rintro ⟨e, (he | he), hed, hen⟩
        · exact absurd (by rw [← he]; exact hed) hd
        · exact ⟨e, he, hed, hen⟩

theorem list_contains_iff (l : List (List Char)) (n : List Char) :
    l.contains n = true ↔ n ∈ l :=
  List.elem_iff

theorem contains_done_names (exs : List Exercise)
    (hnodup : (exs.map Exercise.name).Nodup) (ex : Exercise) (hmem : ex ∈ exs) :
    (done_names exs).contains ex.name = ex.done := by
  by_cases hd : ex.done
  · rw [hd, list_contains_iff, mem_done_names]
    exact ⟨ex, hmem, hd, rfl⟩
  · have hdf : ex.done = false := by
      cases hb : ex.done
      · rfl
      · exact absurd hb hd
    rw [hdf]
    refine Bool.eq_false_iff.mpr ?_
    intro hct
    obtain ⟨e, he, hed, hen⟩ :=
      (mem_done_names exs ex.name).mp ((list_contains_iff _ _).mp hct)
    have heq : e = ex := List.inj_on_of_nodup_map hnodup he hmem hen
    rw [heq, hdf] at hed
    exact Bool.false_ne_true hed

theorem parse_go_exs (dn : List (List Char)) (cn : List Char) :
    ∀ (exs : List Exercise) (ind ci nd : Nat),
    (parse_go dn cn exs ind ci nd).2.2 =
      exs.map (fun ex => if dn.contains ex.name then { ex with done := true } else ex)
  | [], _, _, _ => rfl
  | ex :: rest, ind, ci, nd => by
    rw [parse_go]
    dsimp only
    rw [List.map_cons, parse_go_exs dn cn rest (ind + 1) _ _]

theorem parse_go_ndone (dn : List (List Char)) (cn : List Char) :
    ∀ (exs : List Exercise) (ind ci nd : Nat),
    (parse_go dn cn exs ind ci nd).2.1 =
      nd + exs.countP (fun ex => dn.contains ex.name)
  | [], _, _, _ => by
    rw [parse_go, List.countP_nil]
    rfl
  | ex :: rest, ind, ci, nd => by
    rw [parse_go]
    dsimp only
    rw [parse_go_ndone dn cn rest (ind + 1) _ _, List.countP_cons]
    by_cases hc : dn.contains ex.name
    · rw [if_pos hc, if_pos hc]
      omega
    · rw [if_neg hc, if_neg hc]
      omega

theorem parse_go_nomatch (dn : List (List Char)) (cn : List Char) :
    ∀ (exs : List Exercise) (ind ci nd : Nat), (∀ ex ∈ exs, ex.name ≠ cn) →
    (parse_go dn cn exs ind ci nd).1 = ci
  | [], _, _, _, _ => rfl
  | ex :: rest, ind, ci, nd, h => by
    rw [parse_go]
    dsimp only
    rw [if_neg (h ex (List.mem_cons_self ex rest)),
      parse_go_nomatch dn cn rest (ind + 1) ci _
        (fun e he => h e (List.mem_cons_of_mem ex he))]

theorem parse_go_found (dn : List (List Char)) (cn : List Char) :
    ∀ (exs1 : List Exercise) (ex : Exercise) (exs2 : List Exercise) (ind ci nd : Nat),
    ex.name = cn → (∀ e ∈ exs2, e.name ≠ cn) →
    (parse_go dn cn (exs1 ++ ex :: exs2) ind ci nd).1 = ind + exs1.length
  | [], ex, exs2, ind, ci, nd, hex, h2 => by
    rw [List.nil_append, parse_go]
    dsimp only
    rw [if_pos hex, parse_go_nomatch dn cn exs2 (ind + 1) ind _ h2, List.length_nil]
    omega
  | e :: exs1, ex, exs2, ind, ci, nd, hex, h2 => by
    rw [List.cons_append, parse_go]
    dsimp only
    rw [parse_go_found dn cn exs1 ex exs2 (ind + 1) _ _ hex h2, List.length_cons]
    omega

theorem nodup_not_mem_drop {α : Type} (L : List α) (hnd : L.Nodup) (j : Nat)
    (hj : j < L.length) : L.get ⟨j, hj⟩ ∉ L.drop (j + 1) := by
  intro hmem
  obtain ⟨k, hk, hEq⟩ := List.getElem_of_mem hmem
  rw [List.getElem_drop] at hEq
  have hlen : j + 1 + k < L.length := by
    have := hk
    rw [List.length_drop] at this
    omega
  have hget : L.get ⟨j, hj⟩ = L[j] := rfl
  rw [hget] at hEq
  have := (hnd.getElem_inj_iff).mp hEq
  omega

theorem parse_go_unique (dn : List (List Char)) (cn : List Char)
    (exs : List Exercise) (j : Nat) (hj : j < exs.length)
    (hcn : (exs.getD j ⟨[], false⟩).name = cn)
    (hnodup : (exs.map Exercise.name).Nodup) (ci nd : Nat) :
    (parse_go dn cn exs 0 ci nd).1 = j := by
  have hjget : exs.getD j ⟨[], false⟩ = exs.get ⟨j, hj⟩ := List.getD_eq_getElem exs _ hj
  have h2 : ∀ e ∈ exs.drop (j + 1), e.name ≠ cn := by
    intro e he hen
    have hjm : j < (exs.map Exercise.name).length := by
      rw [List.length_map]
      exact hj
    have hmem : e.name ∈ (exs.drop (j + 1)).map Exercise.name :=
      List.mem_map_of_mem Exercise.name he
    rw [List.map_drop] at hmem
    have hcn2 : (exs.map Exercise.name).get ⟨j, hjm⟩ = cn := by
      rw [← hcn, hjget, List.get_eq_getElem, List.getElem_map]
      rfl
    rw [hen, ← hcn2] at hmem
    exact nodup_not_mem_drop (exs.map Exercise.name) hnodup j hjm hmem
  have hdec : exs.take j ++ exs.get ⟨j, hj⟩ :: exs.drop (j + 1) = exs := by
    rw [show exs.get ⟨j, hj⟩ :: exs.drop (j + 1) = exs.drop j from
      (List.drop_eq_getElem_cons hj).symm]
    exact List.take_append_drop j exs
  conv_lhs => rw [← hdec]
  rw [parse_go_found dn cn (exs.take j) (exs.get ⟨j, hj⟩) (exs.drop (j + 1)) 0 ci nd
    (by rw [← hjget]; exact hcn) h2]
  rw [List.length_take]
  omega

theorem unmark_map_name (exs : List Exercise) :
    (unmark_exercises exs).map Exercise.name = exs.map Exercise.name := by
  rw [unmark_exercises, List.map_map]
  exact List.map_congr_left (fun a _ => rfl)

theorem mark_unmark (exs : List Exercise)
    (hnodup : (exs.map Exercise.name).Nodup) :
    (unmark_exercises exs).map
        (fun ex => if (done_names exs).contains ex.name then { ex with done := true } else ex)
      = exs := by
  rw [unmark_exercises, List.map_map]
  have hpt : ∀ ex ∈ exs,
      ((fun ex => if (done_names exs).contains ex.name then { ex with done := true } else ex) ∘
        (fun ex => { ex with done := false })) ex = id ex := by
    intro ex hmem
    have hc := contains_done_names exs hnodup ex hmem
    cases ex with
    | mk n d =>
      dsimp only at hc
      show (if (done_names exs).contains n = true then
          ({ name := n, done := true } : Exercise) else { name := n, done := false }) =
        ({ name := n, done := d } : Exercise)
      rw [hc]
      cases d
      · rw [if_neg Bool.false_ne_true]
      · rw [if_pos rfl]
  rw [List.map_congr_left hpt, List.map_id]

theorem unmark_countP (exs : List Exercise)
    (hnodup : (exs.map Exercise.name).Nodup) :
    (unmark_exercises exs).countP (fun ex => (done_names exs).contains ex.name) =
      exs.countP (fun ex => ex.done) := by
  rw [unmark_exercises, List.countP_map]
  exact List.countP_congr (fun ex hmem => by
    show (done_names exs).contains ex.name = true ↔ ex.done = true
    rw [contains_done_names exs hnodup ex hmem])

theorem header_decomp :
    STATE_FILE_HEADER = ("DON'T EDIT THIS FILE!" : String).toList ++ ['\n', '\n'] := by
  decide

theorem splitNl_done_block_nil (exs : List Exercise)
    (hnl : ∀ ex ∈ exs, '\n' ∉ ex.name) :
    splitNl (done_names_block exs) = [] :: done_names exs :=
  splitNl_done_block exs [] (by simp) hnl

theorem splitNl_write_buf (st : AppState)
    (hlen : st.current_exercise_ind < st.exercises.length)
    (hnl : ∀ ex ∈ st.exercises, '\n' ∉ ex.name) :
    splitNl st.write_buf =
      ("DON'T EDIT THIS FILE!" : String).toList :: [] ::
        (st.exercises.getD st.current_exercise_ind ⟨[], false⟩).name :: [] ::
          done_names st.exercises := by
  have hcur : st.exercises.getD st.current_exercise_ind ⟨[], false⟩ ∈ st.exercises := by
    rw [List.getD_eq_getElem st.exercises _ hlen]
    exact List.getElem_mem hlen
  have hcurnl : '\n' ∉ (st.exercises.getD st.current_exercise_ind ⟨[], false⟩).name :=
    hnl _ hcur
  have hhdr : '\n' ∉ ("DON'T EDIT THIS FILE!" : String).toList := by decide
  have hbuf : st.write_buf = ("DON'T EDIT THIS FILE!" : String).toList ++ '\n' ::
      ('\n' :: ((st.exercises.getD st.current_exercise_ind ⟨[], false⟩).name ++
        '\n' :: done_names_block st.exercises)) := by
    rw [AppState.write_buf, header_decomp]
    simp [List.append_assoc]
  rw [hbuf, splitNl_nlfree_append _ _ hhdr, splitNl_nl,
    splitNl_nlfree_append _ _ hcurnl, splitNl_done_block_nil st.exercises hnl]

/-- C2: writing the session state with `AppState::write` and parsing the
written bytes back with `parse_state_file` against a fresh copy of the same
exercise list reconstructs the current-exercise index, the done count and
the done flags exactly (assuming, as `rustlings` does, that exercise names
are distinct, non-empty and newline-free); and a truncated file (header
only), an empty current-exercise name, or a missing separator line each
yield the fresh-start default `(0, 0, NotRead)` with the exercises
untouched, not an error. -/
theorem C2_state_roundtrip (st : AppState)
    (hlen : st.current_exercise_ind < st.exercises.length)
    (hnodup : (st.exercises.map Exercise.name).Nodup)
    (hne : ∀ ex ∈ st.exercises, ex.name ≠ [])
    (hnl : ∀ ex ∈ st.exercises, '\n' ∉ ex.name) :
    parse_state_file st.write_buf (unmark_exercises st.exercises) =
      (st.current_exercise_ind, st.exercises.countP (fun ex => ex.done),
        StateFileStatus.Read, st.exercises)
    ∧ (∀ exs, parse_state_file ("DON'T EDIT THIS FILE!\n" : String).toList exs =
        (0, 0, StateFileStatus.NotRead, exs))
    ∧ (∀ exs, parse_state_file ("DON'T EDIT THIS FILE!\n\n\nfoo" : String).toList exs =
        (0, 0, StateFileStatus.NotRead, exs))
    ∧ (∀ exs, parse_state_file ("DON'T EDIT THIS FILE!\n\nfoo" : String).toList exs =
        (0, 0, StateFileStatus.NotRead, exs)) := by
  have hcur : st.exercises.getD st.current_exercise_ind ⟨[], false⟩ ∈ st.exercises := by
    rw [List.getD_eq_getElem st.exercises _ hlen]
    exact List.getElem_mem hlen
  have hcne : (st.exercises.getD st.current_exercise_ind ⟨[], false⟩).name ≠ [] :=
    hne _ hcur
  have hdnne : ∀ n ∈ done_names st.exercises, n ≠ ([] : List Char) := by
    intro n hn
    obtain ⟨e, he, _, hen⟩ := (mem_done_names st.exercises n).mp hn
    rw [← hen]
    exact hne e he
  refine ⟨?_, fun exs => rfl, fun exs => rfl, fun exs => rfl⟩
  unfold parse_state_file
  rw [splitNl_write_buf st hlen hnl]
  rw [show (("DON'T EDIT THIS FILE!" : String).toList :: [] ::
      (st.exercises.getD st.current_exercise_ind ⟨[], false⟩).name :: [] ::
        done_names st.exercises).drop 2 =
    (st.exercises.getD st.current_exercise_ind ⟨[], false⟩).name :: [] ::
      done_names st.exercises from rfl]
  dsimp only
  rw [if_neg hcne]
  rw [takeWhile_ne_nil (done_names st.exercises) hdnne]
  have hr1 : (parse_go (done_names st.exercises)
      (st.exercises.getD st.current_exercise_ind ⟨[], false⟩).name
      (unmark_exercises st.exercises) 0 0 0).1 = st.current_exercise_ind := by
    have hj : st.current_exercise_ind < (unmark_exercises st.exercises).length := by
      rw [unmark_exercises, List.length_map]
      exact hlen
    refine parse_go_unique _ _ _ _ hj ?_ ?_ 0 0
    · rw [List.getD_eq_getElem _ _ hj, List.getD_eq_getElem _ _ hlen]
      simp only [unmark_exercises, List.getElem_map]
    · rw [unmark_map_name]
      exact hnodup
  have hr2 : (parse_go (done_names st.exercises)
      (st.exercises.getD st.current_exercise_ind ⟨[], false⟩).name
      (unmark_exercises st.exercises) 0 0 0).2.1 =
        st.exercises.countP (fun ex => ex.done) := by
    rw [parse_go_ndone, unmark_countP st.exercises hnodup, Nat.zero_add]
  have hr3 : (parse_go (done_names st.exercises)
      (st.exercises.getD st.current_exercise_ind ⟨[], false⟩).name
      (unmark_exercises st.exercises) 0 0 0).2.2 = st.exercises := by
    rw [parse_go_exs, mark_unmark st.exercises hnodup]
  rw [hr1, hr2, hr3]

/-- A concrete session for the round-trip witness: six exercises, the
sixth one current, the second and the fourth done (the spec's example
`{current=5, done={ex1,ex3}}`). -/
def stWitness : AppState :=
  { current_exercise_ind := 5,
    exercises :=
      [⟨['e', 'x', '0'], false⟩, ⟨['e', 'x', '1'], true⟩, ⟨['e', 'x', '2'], false⟩,
        ⟨['e', 'x', '3'], true⟩, ⟨['e', 'x', '4'], false⟩, ⟨['e', 'x', '5'], false⟩],
    n_done := 2 }

theorem C2_state_roundtrip_witness :
    parse_state_file stWitness.write_buf (unmark_exercises stWitness.exercises) =
      (stWitness.current_exercise_ind, stWitness.exercises.countP (fun ex => ex.done),
        StateFileStatus.Read, stWitness.exercises) :=
  (C2_state_roundtrip stWitness (by decide) (by decide) (by decide) (by decide)).1

/- ============== C1/C9: the bulk verification pass ============== -/

theorem set_status_ok {st : AppState} {j : Nat} {b : Bool} {st1 : AppState} {ch : Bool}
    (h : st.set_status j b = Except.ok (st1, ch)) :
    st1.exercises.length = st.exercises.length ∧
    (∀ k, k ≠ j → st1.exercises.getD k ⟨[], false⟩ = st.exercises.getD k ⟨[], false⟩) ∧
    (st1.exercises.getD j ⟨[], false⟩).done = b ∧
    (st1.exercises.getD j ⟨[], false⟩).name = (st.exercises.getD j ⟨[], false⟩).name := by
  unfold AppState.set_status at h
  cases hget : st.exercises.get? j with
  | none =>
    rw [hget] at h
    exact Except.noConfusion h
  | some ex =>
    rw [hget] at h
    dsimp only at h
    obtain ⟨hlt, hgetE⟩ := List.get?_eq_some.mp hget
    have hgetD : st.exercises.getD j ⟨[], false⟩ = ex := by
      rw [List.getD_eq_getElem _ _ hlt]
      exact hgetE
    by_cases hdb : ex.done = b
    · rw [if_pos hdb] at h
      injection h with h1
      injection h1 with h2 h3
      subst h2
      exact ⟨rfl, fun k _ => rfl, by rw [hgetD]; exact hdb, rfl⟩
    · rw [if_neg hdb] at h
      injection h with h1
      injection h1 with h2 h3
      subst h2
      refine ⟨?_, ?_, ?_, ?_⟩
      · dsimp only
        exact List.length_set st.exercises j _
      · intro k hk
        dsimp only
        exact getD_set_ne _ _ _ (fun he => hk he.symm)
      · dsimp only
        rw [getD_set_self _ _ _ _ hlt]
      · dsimp only
        rw [getD_set_self _ _ _ _ hlt, hgetD]

theorem process_go_spec (run : Nat → Except Unit Bool) :
    ∀ (inds : List Nat) (st : AppState) (prog : List CheckProgress) (fp0 : Option Nat)
      (res : AppState × List CheckProgress × Option Nat),
      inds.Nodup → (∀ j ∈ inds, j < prog.length) →
      process_results_go run inds st prog fp0 = Except.ok res →
      res.2.1.length = prog.length ∧
      res.1.exercises.length = st.exercises.length ∧
      (∀ k, k ∉ inds →
        res.2.1.getD k CheckProgress.NoResult = prog.getD k CheckProgress.NoResult) ∧
      (∀ k, k ∉ inds →
        res.1.exercises.getD k ⟨[], false⟩ = st.exercises.getD k ⟨[], false⟩) ∧
      (∀ j ∈ inds, res.2.1.getD j CheckProgress.NoResult = CheckProgress.Done ∨
        res.2.1.getD j CheckProgress.NoResult = CheckProgress.Pending) ∧
      (∀ j ∈ inds, ((res.1.exercises.getD j ⟨[], false⟩).done = true ↔
          res.2.1.getD j CheckProgress.NoResult = CheckProgress.Done) ∧
        (res.1.exercises.getD j ⟨[], false⟩).name =
          (st.exercises.getD j ⟨[], false⟩).name) ∧
      (∀ k, fp0 = some k → res.2.2 = some k) ∧
      (fp0 = Option.none → res.2.2 =
        inds.find? (fun j =>
          res.2.1.getD j CheckProgress.NoResult = CheckProgress.Pending))
  | [], st, prog, fp0, res, _, _, h => by
    rw [process_results_go] at h
    injection h with h1
    subst h1
    exact ⟨rfl, rfl, fun k _ => rfl, fun k _ => rfl,
      fun j hj => absurd hj (List.not_mem_nil j),
      fun j hj => absurd hj (List.not_mem_nil j),
      fun k hk => hk, fun h0 => by rw [h0]; rfl⟩
  | j :: rest, st, prog, fp0, res, hnd, hb, h => by
    have hjrest : j ∉ rest := (List.nodup_cons.mp hnd).1
    have hndrest : rest.Nodup := (List.nodup_cons.mp hnd).2
    have hjlen : j < prog.length := hb j (List.mem_cons_self j rest)
    have hbrest : ∀ k ∈ rest, k < prog.length :=
      fun k hk => hb k (List.mem_cons_of_mem j hk)
    rw [process_results_go] at h
    cases hslot : prog.getD j CheckProgress.NoResult with
    | Done =>
      rw [hslot] at h
      dsimp only at h
      cases hset : st.set_status j true with
      | error e =>
        rw [hset] at h
        exact Except.noConfusion h
      | ok p =>
        obtain ⟨st1, ch⟩ := p
        rw [hset] at h
        dsimp only at h
        obtain ⟨hsLen, hsFrame, hsDone, hsName⟩ := set_status_ok hset
        obtain ⟨ihPlen, ihElen, ihPframe, ihEframe, ihSlots, ihFlags, ihSome, ihNone⟩ :=
          process_go_spec run rest st1 prog fp0 res hndrest hbrest h
        have hfj : res.2.1.getD j CheckProgress.NoResult = CheckProgress.Done := by
          rw [ihPframe j hjrest, hslot]
        refine ⟨ihPlen, ihElen.trans hsLen, ?_, ?_, ?_, ?_, ihSome, ?_⟩
        · intro k hk
          exact ihPframe k (fun hr => hk (List.mem_cons_of_mem j hr))
        · intro k hk
          have hkj : k ≠ j := fun he => hk (he ▸ List.mem_cons_self j rest)
          rw [ihEframe k (fun hr => hk (List.mem_cons_of_mem j hr)), hsFrame k hkj]
        · intro i hi
          rcases List.mem_cons.mp hi with he | hr
          · subst he
            exact Or.inl hfj
          · exact ihSlots i hr
        · intro i hi
          rcases List.mem_cons.mp hi with he | hr
          · subst he
            constructor
            · rw [ihEframe i hjrest, hsDone, hfj]
              simp
            · rw [ihEframe i hjrest]
              exact hsName
          · obtain ⟨hiff, hnm⟩ := ihFlags i hr
            have hij : i ≠ j := fun he => hjrest (he ▸ hr)
            exact ⟨hiff, hnm.trans (congrArg Exercise.name (hsFrame i hij))⟩
        · intro h0
          rw [ihNone h0, List.find?_cons_of_neg rest
            (by
              simp only [decide_eq_true_eq]
              rw [hfj]
              exact fun habs => nomatch habs)]
    | Pending =>
      rw [hslot] at h
      dsimp only at h
      cases hset : st.set_status j false with
      | error e =>
        rw [hset] at h
        exact Except.noConfusion h
      | ok p =>
        obtain ⟨st1, ch⟩ := p
        rw [hset] at h
        dsimp only at h
        obtain ⟨hsLen, hsFrame, hsDone, hsName⟩ := set_status_ok hset
        obtain ⟨ihPlen, ihElen, ihPframe, ihEframe, ihSlots, ihFlags, ihSome, ihNone⟩ :=
          process_go_spec run rest st1 prog
            (if fp0 = Option.none then some j else fp0) res hndrest hbrest h
        have hfj : res.2.1.getD j CheckProgress.NoResult = CheckProgress.Pending := by
          rw [ihPframe j hjrest, hslot]
        refine ⟨ihPlen, ihElen.trans hsLen, ?_, ?_, ?_, ?_, ?_, ?_⟩
        · intro k hk
          exact ihPframe k (fun hr => hk (List.mem_cons_of_mem j hr))
        · intro k hk
          have hkj : k ≠ j := fun he => hk (he ▸ List.mem_cons_self j rest)
          rw [ihEframe k (fun hr => hk (List.mem_cons_of_mem j hr)), hsFrame k hkj]
        · intro i hi
          rcases List.mem_cons.mp hi with he | hr
          · subst he
            exact Or.inr hfj
          · exact ihSlots i hr
        · intro i hi
          rcases List.mem_cons.mp hi with he | hr
          · subst he
            constructor
            · rw [ihEframe i hjrest, hsDone, hfj]
              simp
            · rw [ihEframe i hjrest]
              exact hsName
          · obtain ⟨hiff, hnm⟩ := ihFlags i hr
            have hij : i ≠ j := fun he => hjrest (he ▸ hr)
            exact ⟨hiff, hnm.trans (congrArg Exercise.name (hsFrame i hij))⟩
        · intro k hk
          exact ihSome k
            (by rw [if_neg (fun he => by rw [hk] at he; exact Option.noConfusion he)]
                exact hk)
        · intro h0
          have h1 := ihSome j (by rw [if_pos h0])
          rw [h1, List.find?_cons_of_pos rest
            (by
              simp only [decide_eq_true_eq]
              exact hfj)]
    | NoResult =>
      rw [hslot] at h
      dsimp only at h
      cases hrun : run j with
      | error e =>
        rw [hrun] at h
        exact Except.noConfusion h
      | ok success =>
        rw [hrun] at h
        dsimp only at h
        cases hset : st.set_status j success with
        | error e =>
          rw [hset] at h
          exact Except.noConfusion h
        | ok p =>
          obtain ⟨st1, ch⟩ := p
          rw [hset] at h
          dsimp only at h
          obtain ⟨hsLen, hsFrame, hsDone, hsName⟩ := set_status_ok hset
          obtain ⟨ihPlen, ihElen, ihPframe, ihEframe, ihSlots, ihFlags, ihSome, ihNone⟩ :=
            process_go_spec run rest st1
              ((prog.set j CheckProgress.Checking).set j
                (if success = true then CheckProgress.Done else CheckProgress.Pending))
              (if success = true then fp0
                else if fp0 = Option.none then some j else fp0)
              res hndrest
              (by
                intro k hk
                rw [List.length_set, List.length_set]
                exact hbrest k hk)
              h
          have hfj : res.2.1.getD j CheckProgress.NoResult =
              (if success = true then CheckProgress.Done else CheckProgress.Pending) := by
            rw [ihPframe j hjrest]
            exact getD_set_self _ _ _ _ (by rw [List.length_set]; exact hjlen)
          refine ⟨?_, ihElen.trans hsLen, ?_, ?_, ?_, ?_, ?_, ?_⟩
          · rw [ihPlen, List.length_set, List.length_set]
          · intro k hk
            have hkj : k ≠ j := fun he => hk (he ▸ List.mem_cons_self j rest)
            rw [ihPframe k (fun hr => hk (List.mem_cons_of_mem j hr)),
              getD_set_ne _ _ _ (fun he => hkj he.symm),
              getD_set_ne _ _ _ (fun he => hkj he.symm)]
          · intro k hk
            have hkj : k ≠ j := fun he => hk (he ▸ List.mem_cons_self j rest)
            rw [ihEframe k (fun hr => hk (List.mem_cons_of_mem j hr)), hsFrame k hkj]
          · intro i hi
            rcases List.mem_cons.mp hi with he | hr
            · subst he
              rw [hfj]
              by_cases hsucc : success = true
              · rw [if_pos hsucc]
                exact Or.inl rfl
              · rw [if_neg hsucc]
                exact Or.inr rfl
            · exact ihSlots i hr
          · intro i hi
            rcases List.mem_cons.mp hi with he | hr
            · subst he
              constructor
              · rw [ihEframe i hjrest, hsDone, hfj]
                by_cases hsucc : success = true
                · simp [hsucc]
                · simp [hsucc]
              · rw [ihEframe i hjrest]
                exact hsName
            · obtain ⟨hiff, hnm⟩ := ihFlags i hr
              have hij : i ≠ j := fun he => hjrest (he ▸ hr)
              exact ⟨hiff, hnm.trans (congrArg Exercise.name (hsFrame i hij))⟩
          · intro k hk
            refine ihSome k ?_
            by_cases hsucc : success = true
            · rw [if_pos hsucc]
              exact hk
            · rw [if_neg hsucc,
                if_neg (fun he => by rw [hk] at he; exact Option.noConfusion he)]
              exact hk
          · intro h0
            by_cases hsucc : success = true
            · have h1 := ihNone (by rw [if_pos hsucc]; exact h0)
              rw [h1, List.find?_cons_of_neg rest
                (by
                  simp only [decide_eq_true_eq]
                  rw [hfj, if_pos hsucc]
                  exact fun habs => nomatch habs)]
            · have h1 := ihSome j (by rw [if_neg hsucc, if_pos h0])
              rw [h1, List.find?_cons_of_pos rest
                (by
                  simp only [decide_eq_true_eq]
                  rw [hfj, if_neg hsucc])]
    | Checking =>
      rw [hslot] at h
      dsimp only at h
      cases hrun : run j with
      | error e =>
        rw [hrun] at h
        exact Except.noConfusion h
      | ok success =>
        rw [hrun] at h
        dsimp only at h
        cases hset : st.set_status j success with
        | error e =>
          rw [hset] at h
          exact Except.noConfusion h
        | ok p =>
          obtain ⟨st1, ch⟩ := p
          rw [hset] at h
          dsimp only at h
          obtain ⟨hsLen, hsFrame, hsDone, hsName⟩ := set_status_ok hset
          obtain ⟨ihPlen, ihElen, ihPframe, ihEframe, ihSlots, ihFlags, ihSome, ihNone⟩ :=
            process_go_spec run rest st1
              ((prog.set j CheckProgress.Checking).set j
                (if success = true then CheckProgress.Done else CheckProgress.Pending))
              (if success = true then fp0
                else if fp0 = Option.none then some j else fp0)
              res hndrest
              (by
                intro k hk
                rw [List.length_set, List.length_set]
                exact hbrest k hk)
              h
          have hfj : res.2.1.getD j CheckProgress.NoResult =
              (if success = true then CheckProgress.Done else CheckProgress.Pending) := by
            rw [ihPframe j hjrest]
            exact getD_set_self _ _ _ _ (by rw [List.length_set]; exact hjlen)
          refine ⟨?_, ihElen.trans hsLen, ?_, ?_, ?_, ?_, ?_, ?_⟩
          · rw [ihPlen, List.length_set, List.length_set]
          · intro k hk
            have hkj : k ≠ j := fun he => hk (he ▸ List.mem_cons_self j rest)
            rw [ihPframe k (fun hr => hk (List.mem_cons_of_mem j hr)),
              getD_set_ne _ _ _ (fun he => hkj he.symm),
              getD_set_ne _ _ _ (fun he => hkj he.symm)]
          · intro k hk
            have hkj : k ≠ j := fun he => hk (he ▸ List.mem_cons_self j rest)
            rw [ihEframe k (fun hr => hk (List.mem_cons_of_mem j hr)), hsFrame k hkj]
          · intro i hi
            rcases List.mem_cons.mp hi with he | hr
            · subst he
              rw [hfj]
              by_cases hsucc : success = true
              · rw [if_pos hsucc]
                exact Or.inl rfl
              · rw [if_neg hsucc]
                exact Or.inr rfl
            · exact ihSlots i hr
          · intro i hi
            rcases List.mem_cons.mp hi with he | hr
            · subst he
              constructor
              · rw [ihEframe i hjrest, hsDone, hfj]
                by_cases hsucc : success = true
                · simp [hsucc]
                · simp [hsucc]
              · rw [ihEframe i hjrest]
                exact hsName
            · obtain ⟨hiff, hnm⟩ := ihFlags i hr
              have hij : i ≠ j := fun he => hjrest (he ▸ hr)
              exact ⟨hiff, hnm.trans (congrArg Exercise.name (hsFrame i hij))⟩
          · intro k hk
            refine ihSome k ?_
            by_cases hsucc : success = true
            · rw [if_pos hsucc]
              exact hk
            · rw [if_neg hsucc,
                if_neg (fun he => by rw [hk] at he; exact Option.noConfusion he)]
              exact hk
          · intro h0
            by_cases hsucc : success = true
            · have h1 := ihNone (by rw [if_pos hsucc]; exact h0)
              rw [h1, List.find?_cons_of_neg rest
                (by
                  simp only [decide_eq_true_eq]
                  rw [hfj, if_pos hsucc]
                  exact fun habs => nomatch habs)]
            · have h1 := ihSome j (by rw [if_neg hsucc, if_pos h0])
              rw [h1, List.find?_cons_of_pos rest
                (by
                  simp only [decide_eq_true_eq]
                  rw [hfj, if_neg hsucc])]

theorem find?_range_aux (p : Nat → Bool) :
    ∀ (n s i : Nat), (List.range' s n).find? p = some i →
      s ≤ i ∧ p i = true ∧ ∀ k, s ≤ k → k < i → p k = false
  | 0, s, i, h => by
    rw [List.range'_zero] at h
    exact Option.noConfusion h
  | n + 1, s, i, h => by
    rw [List.range'_succ] at h
    cases hps : p s with
    | true =>
      rw [List.find?_cons_of_pos _ hps] at h
      injection h with h1
      subst h1
      exact ⟨le_refl s, hps, fun k hk1 hk2 => absurd hk2 (by omega)⟩
    | false =>
      rw [List.find?_cons_of_neg _ (by rw [hps]; exact Bool.false_ne_true)] at h
      obtain ⟨h1, h2, h3⟩ := find?_range_aux p n (s + 1) i h
      refine ⟨by omega, h2, ?_⟩
      intro k hk1 hk2
      by_cases hks : k = s
      · rw [hks]
        exact hps
      · exact h3 k (by omega) hk2

theorem find?_range_first (p : Nat → Bool) (n i : Nat)
    (h : (List.range n).find? p = some i) :
    p i = true ∧ ∀ k, k < i → p k = false := by
  rw [List.range_eq_range'] at h
  obtain ⟨_, h2, h3⟩ := find?_range_aux p n 0 i h
  exact ⟨h2, fun k hk => h3 k (Nat.zero_le k) hk⟩

/-- C1: after the sequential corrective pass of a successful bulk
verification, every slot of the progress array is a definitive `Done` or
`Pending`, and the returned index is `some i` for the smallest index whose
final status is `Pending` — every smaller index ended `Done` — or `none`
when every exercise ended `Done`. -/
theorem C1_bulk_check (st : AppState) (run : Nat → Except Unit Bool)
    (progresses : List CheckProgress) (st1 : AppState) (prog1 : List CheckProgress)
    (first_pending : Option Nat) (log : List (List Char))
    (h : st.check_all_exercises_impl run progresses =
      Except.ok (st1, prog1, first_pending, log)) :
    (∀ p ∈ prog1, p = CheckProgress.Done ∨ p = CheckProgress.Pending) ∧
    (∀ i, first_pending = some i →
      prog1.getD i CheckProgress.NoResult = CheckProgress.Pending ∧
      ∀ k, k < i → prog1.getD k CheckProgress.NoResult = CheckProgress.Done) ∧
    (first_pending = Option.none → ∀ p ∈ prog1, p = CheckProgress.Done) := by
  unfold AppState.check_all_exercises_impl at h
  cases hp : st.process_exercise_results run progresses with
  | error e =>
    rw [hp] at h
    exact Except.noConfusion h
  | ok t =>
    obtain ⟨st2, prog2, fp2⟩ := t
    rw [hp] at h
    dsimp only at h
    injection h with h1
    injection h1 with hA h2
    injection h2 with hB h3
    injection h3 with hC hD
    subst hA
    subst hB
    subst hC
    unfold AppState.process_exercise_results at hp
    obtain ⟨ihPlen, _, _, _, ihSlots, _, _, ihNone⟩ :=
      process_go_spec run (List.range progresses.length) st progresses Option.none
        (st2, prog2, fp2) (List.nodup_range progresses.length)
        (fun j hj => List.mem_range.mp hj) hp
    dsimp only at ihPlen ihSlots ihNone
    have hfp := ihNone rfl
    refine ⟨?_, ?_, ?_⟩
    · intro p hpm
      obtain ⟨i, hi, hEq⟩ := List.mem_iff_getElem.mp hpm
      have hi2 : i < progresses.length := by rw [← ihPlen]; exact hi
      have hs := ihSlots i (List.mem_range.mpr hi2)
      rw [List.getD_eq_getElem _ _ hi, hEq] at hs
      exact hs
    · intro i hfpi
      rw [hfp] at hfpi
      have hmem := List.mem_of_find?_eq_some hfpi
      have hin : i < progresses.length := List.mem_range.mp hmem
      obtain ⟨hpi, hpk⟩ := find?_range_first _ progresses.length i hfpi
      constructor
      · simp only [decide_eq_true_eq] at hpi
        exact hpi
      · intro k hk
        have hkn : k < progresses.length := by omega
        have hslot := ihSlots k (List.mem_range.mpr hkn)
        have hnp := hpk k hk
        simp only [decide_eq_false_iff_not] at hnp
        rcases hslot with hD | hP
        · exact hD
        · exact absurd hP hnp
    · intro h0 p hpm
      rw [hfp] at h0
      have hall := List.find?_eq_none.mp h0
      obtain ⟨i, hi, hEq⟩ := List.mem_iff_getElem.mp hpm
      have hi2 : i < progresses.length := by rw [← ihPlen]; exact hi
      have hne := hall i (List.mem_range.mpr hi2)
      simp only [decide_eq_true_eq] at hne
      rcases ihSlots i (List.mem_range.mpr hi2) with hD | hP
      · rw [List.getD_eq_getElem _ _ hi, hEq] at hD
        exact hD
      · exact absurd hP hne

/-- C9: on a successful bulk verification pass, the per-exercise `done`
flags end synchronized to the final outcomes (`done` iff the final status
is `Done`), only the flags are mutated (names are untouched, exercises
outside the checked range are untouched), and the persistence log is
exactly one state-file write — the `self.write()` at the end of
`check_all_exercises_impl`; `set_status` during result processing never
writes. -/
theorem C9_flags_single_write (st : AppState) (run : Nat → Except Unit Bool)
    (progresses : List CheckProgress) (st1 : AppState) (prog1 : List CheckProgress)
    (first_pending : Option Nat) (log : List (List Char))
    (h : st.check_all_exercises_impl run progresses =
      Except.ok (st1, prog1, first_pending, log)) :
    log = [st1.write_buf] ∧
    st1.exercises.length = st.exercises.length ∧
    (∀ i, i < progresses.length →
      ((st1.exercises.getD i ⟨[], false⟩).done = true ↔
        prog1.getD i CheckProgress.NoResult = CheckProgress.Done) ∧
      (st1.exercises.getD i ⟨[], false⟩).name =
        (st.exercises.getD i ⟨[], false⟩).name) ∧
    (∀ i, progresses.length ≤ i →
      st1.exercises.getD i ⟨[], false⟩ = st.exercises.getD i ⟨[], false⟩) := by
  unfold AppState.check_all_exercises_impl at h
  cases hp : st.process_exercise_results run progresses with
  | error e =>
    rw [hp] at h
    exact Except.noConfusion h
  | ok t =>
    obtain ⟨st2, prog2, fp2⟩ := t
    rw [hp] at h
    dsimp only at h
    injection h with h1
    injection h1 with hA h2
    injection h2 with hB h3
    injection h3 with hC hD
    subst hA
    subst hB
    subst hC
    unfold AppState.process_exercise_results at hp
    obtain ⟨_, ihElen, _, ihEframe, _, ihFlags, _, _⟩ :=
      process_go_spec run (List.range progresses.length) st progresses Option.none
        (st2, prog2, fp2) (List.nodup_range progresses.length)
        (fun j hj => List.mem_range.mp hj) hp
    dsimp only at ihElen ihEframe ihFlags
    refine ⟨hD.symm, ihElen, ?_, ?_⟩
    · intro i hi
      exact ihFlags i (List.mem_range.mpr hi)
    · intro i hi
      exact ihEframe i (fun hm => by
        have := List.mem_range.mp hm
        omega)

/-- A concrete bulk pass for the witnesses: two exercises, the first one
reported `Done` by the parallel phase, the second left `NoResult` so the
sequential retry runs it (and it fails). -/
def stCheckW : AppState :=
  { current_exercise_ind := 0,
    exercises := [⟨['a'], false⟩, ⟨['b'], false⟩],
    n_done := 0 }

def runCheckW : Nat → Except Unit Bool := fun i => Except.ok (decide (i = 0))

def progCheckW : List CheckProgress := [CheckProgress.Done, CheckProgress.NoResult]

def stCheckW1 : AppState :=
  { current_exercise_ind := 0,
    exercises := [⟨['a'], true⟩, ⟨['b'], false⟩],
    n_done := 1 }

theorem C1_bulk_check_witness :
    (∀ p ∈ [CheckProgress.Done, CheckProgress.Pending],
      p = CheckProgress.Done ∨ p = CheckProgress.Pending) ∧
    (∀ i, (some 1 : Option Nat) = some i →
      [CheckProgress.Done, CheckProgress.Pending].getD i CheckProgress.NoResult =
        CheckProgress.Pending ∧
      ∀ k, k < i →
        [CheckProgress.Done, CheckProgress.Pending].getD k CheckProgress.NoResult =
          CheckProgress.Done) ∧
    ((some 1 : Option Nat) = Option.none →
      ∀ p ∈ [CheckProgress.Done, CheckProgress.Pending], p = CheckProgress.Done) :=
  C1_bulk_check stCheckW runCheckW progCheckW stCheckW1
    [CheckProgress.Done, CheckProgress.Pending] (some 1) [stCheckW1.write_buf] (by rfl)

theorem C9_flags_single_write_witness :
    [stCheckW1.write_buf] = [stCheckW1.write_buf] ∧
    stCheckW1.exercises.length = stCheckW.exercises.length ∧
    (∀ i, i < progCheckW.length →
      ((stCheckW1.exercises.getD i ⟨[], false⟩).done = true ↔
        [CheckProgress.Done, CheckProgress.Pending].getD i CheckProgress.NoResult =
          CheckProgress.Done) ∧
      (stCheckW1.exercises.getD i ⟨[], false⟩).name =
        (stCheckW.exercises.getD i ⟨[], false⟩).name) ∧
    (∀ i, progCheckW.length ≤ i →
      stCheckW1.exercises.getD i ⟨[], false⟩ = stCheckW.exercises.getD i ⟨[], false⟩) :=
  C9_flags_single_write stCheckW runCheckW progCheckW stCheckW1
    [CheckProgress.Done, CheckProgress.Pending] (some 1) [stCheckW1.write_buf] (by rfl)

end RustProgress
